import Mathlib

/-!
Verification development for s3-kinesis-replay.

Shallow embedding of the three pipeline stages of `s3-kinesis-replay`
(archive scan, JSON parser, Kinesis producer) and proofs of properties of
the embedded code.

Conventions of the embedding

* a Go channel is observed through the sequence of operations performed on it;
* a pointer that may be `nil` is an `Option`;
* a Go `panic` or `log.Fatalln` is an explicit outcome of the embedded function;
* calls into third-party libraries are answered by an explicit environment
  (the sequence of answers the library gives), so every definition is a
  computable function.
-/

set_option autoImplicit false

/-! ## kinesis/producer.go -/

namespace Producer

/-- Element of `kinesis.PutRecordsOutput.Records`; `ErrorCode` is a `*string`. -/
structure PutRecordsResultEntry where
  ErrorCode : Option String
  deriving DecidableEq, Repr

/-- The fields of `kinesis.PutRecordsOutput` read by `process`;
`FailedRecordCount` is a `*int64`. -/
structure PutRecordsOutput where
  FailedRecordCount : Option Nat
  Records : List PutRecordsResultEntry
  deriving DecidableEq, Repr

/-- What one invocation of the closure passed to `backoff.Retry` (lines 92-98)
observes: `p.client.PutRecords(params)` either returns an error, after which
`Retry` asks the backoff policy for the next interval (`backoffStop` tells that
the policy answered `Stop`, or that the error was permanent, so `Retry` returns
the error), or it returns an output. -/
inductive Attempt where
  | requestError (backoffStop : Bool)
  | response (output : PutRecordsOutput)
  deriving DecidableEq, Repr

/-- How the loop of lines 90-121 is left. -/
inductive Status where
  /-- `len(params.Records) == 0`: the `for` condition fails and `process` reads
  the next first entry. -/
  | batchDone
  /-- `p.log.WithError(err).Fatalln("kinesis error")`: the process exits. -/
  | fatal
  /-- `params.Records[i]` with `i` out of range. -/
  | panicked
  /-- the environment has no further answer: the loop is still calling. -/
  | waiting
  deriving DecidableEq, Repr

/-- The calls `p.client.PutRecords(params)` made, each with the value of
`params.Records` and what the call observed, and how the loop was left. -/
structure Run (α : Type) where
  calls : List (List α × Attempt)
  status : Status
  deriving Repr

/-- Record one more call in front of a run. -/
def Run.push {α : Type} (c : List α × Attempt) (r : Run α) : Run α :=
  ⟨c :: r.calls, r.status⟩

/-- Lines 105-110: `for i, entry := range output.Records`, appending
`params.Records[i]` to `failed` when `entry.ErrorCode != nil`.  `none` is the
index-out-of-range panic. -/
def collectFailed {α : Type} (records : List α) :
    List PutRecordsResultEntry → Nat → List α → Option (List α)
  | [], _, failed => some failed
  | entry :: rest, i, failed =>
    if entry.ErrorCode.isSome then
      match records[i]? with
      | none => none
      | some r => collectFailed records rest (i + 1) (failed ++ [r])
    else collectFailed records rest (i + 1) failed

/-- Lines 103-111: the slice `failed` built from one output. -/
def failedRecords {α : Type} (records : List α) (output : PutRecordsOutput) :
    Option (List α) :=
  if output.FailedRecordCount.isSome then collectFailed records output.Records 0 []
  else some []

/-- Lines 90-121 of `process`: `for len(params.Records) > 0`, with
`backoff.Retry` unfolded into its attempts.  A failed attempt that the backoff
policy lets continue invokes the closure again, which reads the same `params`;
a failed attempt on which `Retry` gives up reaches `Fatalln`; an output makes
`params.Records = failed`. -/
def putLoop {α : Type} : List α → List Attempt → Run α
  | [], _ => ⟨[], .batchDone⟩
  | _ :: _, [] => ⟨[], .waiting⟩
  | r :: rs, .requestError stop :: rest =>
    if stop then ⟨[(r :: rs, .requestError stop)], .fatal⟩
    else (putLoop (r :: rs) rest).push (r :: rs, .requestError stop)
  | r :: rs, .response output :: rest =>
    match failedRecords (r :: rs) output with
    | none => ⟨[(r :: rs, .response output)], .panicked⟩
    | some failed => (putLoop failed rest).push (r :: rs, .response output)

/-- What the `select` of `bufferWithTimeOrCount` receives. -/
inductive QueueEvent (α : Type) where
  /-- `e, ok := <-entries` with `ok == true`. -/
  | arrival (e : α)
  /-- `<-timeout`. -/
  | timer
  /-- `e, ok := <-entries` with `ok == false`. -/
  | closed
  deriving DecidableEq, Repr

/-- The `for { select { ... } }` of lines 54-70 with the current `batch` and
`n`.  The result is the returned batch and the events not received; `none`
when the events end before any `return` is reached (the `select` blocks). -/
def bufferLoop {α : Type} (max : Int) :
    List (QueueEvent α) → List α → Int → Option (List α × List (QueueEvent α))
  | [], _, _ => none
  | .timer :: rest, batch, _ => some (batch, rest)
  | .closed :: rest, batch, _ => some (batch, rest)
  | .arrival e :: rest, batch, n =>
    if n + 1 ≥ max then some (batch ++ [e], rest)
    else bufferLoop max rest (batch ++ [e]) (n + 1)

/-- Lines 50-71: `batch := {first}`, `n := len(batch)`, then the loop. -/
def bufferWithTimeOrCount {α : Type} (entries : List (QueueEvent α)) (first : α)
    (max : Int) : Option (List α × List (QueueEvent α)) :=
  bufferLoop max entries [first] 1

/-- Lines 82-121 of `process`, the body of `for e := range entries` for the
first entry `e`: the batch is buffered with `max = 500` and written. -/
def processBatch {α : Type} (e : α) (entries : List (QueueEvent α))
    (attempts : List Attempt) : Option (Run α × List (QueueEvent α)) :=
  match bufferWithTimeOrCount entries e 500 with
  | none => none
  | some (batch, rest) => some (putLoop batch attempts, rest)

/-- The entries of `records` whose position carries an error code in
`results`, in order. -/
def atErrorPositions {α : Type} (records : List α)
    (results : List PutRecordsResultEntry) : List α :=
  ((records.zip results).filter (fun p => p.2.ErrorCode.isSome)).map Prod.fst

/-- The entry `e` was acknowledged in `calls`: some call received an output in
which the position of `e` in that call carries no error code. -/
def Acknowledged {α : Type} (calls : List (List α × Attempt)) (e : α) : Prop :=
  ∃ c ∈ calls, ∃ out, c.2 = .response out ∧
    ∃ (j : Nat) (res : PutRecordsResultEntry),
      c.1[j]? = some e ∧ out.Records[j]? = some res ∧ res.ErrorCode = none

/-- The output answers the request `records`: it has a result for every entry,
and it reports a failed count whenever one of its results carries an error
code. -/
def AnswersRequest {α : Type} (records : List α) (out : PutRecordsOutput) : Prop :=
  records.length ≤ out.Records.length ∧
    (out.FailedRecordCount = none → ∀ res ∈ out.Records, res.ErrorCode = none)

end Producer


/-! ## s3/archive.go -/

namespace S3

/-- An operation performed on the `pending` channel. -/
inductive ChanOp where
  /-- `pending <- o`, observed through `*o.Key`. -/
  | send (key : String)
  /-- `close(pending)`. -/
  | close
  deriving DecidableEq, Repr

/-- The fields of `Archive` read by `scan`; `stopAt` is a `*string`. -/
structure Archive where
  stopAt : Option String
  deriving Repr

/-- What the S3 client answers to `ListObjectsV2Pages`: the pages it delivers
to the callback, each with the keys of `output.Contents`, and the error
returned once the pages are exhausted. -/
structure Listing where
  pages : List (List String)
  err : Option String
  deriving Repr

/-- The callback of lines 96-106 on the contents of one page: the operations
performed on `pending` and the returned boolean. -/
def Archive.scanPage (a : Archive) : List String → List ChanOp × Bool
  | [] => ([], true)
  | key :: rest =>
    if (match a.stopAt with
        | some stop => stop == key
        | none => false) then ([], false)
    else
      let r := Archive.scanPage a rest
      (.send key :: r.1, r.2)

/-- The pagination of the S3 client: the callback is invoked on each page in
turn until it returns `false` or the pages are exhausted; stopping through the
callback is not an error. -/
def ListObjectsV2Pages (fn : List String → List ChanOp × Bool) :
    List (List String) → Option String → List ChanOp × Option String
  | [], err => ([], err)
  | page :: rest, err =>
    let r := fn page
    if r.2 then
      let r' := ListObjectsV2Pages fn rest err
      (r.1 ++ r'.1, r'.2)
    else (r.1, none)

/-- Lines 88-113: the operations `scan` performs on `pending`. -/
def Archive.scan (a : Archive) (l : Listing) : List ChanOp :=
  (ListObjectsV2Pages a.scanPage l.pages l.err).1 ++ [.close]

/-- The keys sent on the channel, in order. -/
def pushed (ops : List ChanOp) : List String :=
  ops.filterMap (fun op =>
    match op with
    | .send key => some key
    | .close => none)

/-- `ArchiveConfig`; `Client`, `Downloader` and `Log` tell whether the
interface value is set (not `nil`). -/
structure ArchiveConfig where
  Bucket : String
  Client : Bool
  Concurrency : Int
  Downloader : Bool
  Log : Bool
  Prefix : String
  StartAfter : String
  StopAt : String
  deriving DecidableEq, Repr

/-- `NewArchiveConfig()`: `Concurrency` 10 and a logger, every other field at
its zero value. -/
def NewArchiveConfig : ArchiveConfig where
  Bucket := ""
  Client := false
  Concurrency := 10
  Downloader := false
  Log := true
  Prefix := ""
  StartAfter := ""
  StopAt := ""

/-- `validate.V.Struct(c)` for the struct tags of `ArchiveConfig`: `Bucket`,
`Client` and `Downloader` are `required` (not the zero value), `Concurrency`
is `required,min=1`; `Prefix`, `StartAfter` and `StopAt` are tagged `-`, and
the tag of `Log` is spelt `valdiate`, a key the validator does not read. -/
def ArchiveConfig.valid (c : ArchiveConfig) : Bool :=
  decide (c.Bucket ≠ "") && c.Client &&
    (decide (c.Concurrency ≠ 0) && decide (1 ≤ c.Concurrency)) && c.Downloader

/-- The archive value built by `NewArchive`: the field read by `scan` and the
other fields copied from the configuration (`keyPrefix` is the field
`prefix`); `client`, `downloader`, `log` and `wg` carry no data. -/
structure ArchiveValue extends Archive where
  bucket : String
  concurrency : Int
  keyPrefix : Option String
  startAfter : Option String
  deriving Repr

/-- `NewArchive(c)`, lines 33-59; `none` is the returned error. -/
def NewArchive (c : ArchiveConfig) : Option ArchiveValue :=
  if ¬ c.valid then none
  else
    some {
      bucket := c.Bucket
      concurrency := c.Concurrency
      keyPrefix := if c.Prefix ≠ "" then some c.Prefix else none
      startAfter := if c.StartAfter ≠ "" then some c.StartAfter else none
      stopAt := if c.StopAt ≠ "" then some c.StopAt else none }

/-- The second configuration of `TestNewArchiveInvalidConfig`. -/
def testConfigConcurrencyZero : ArchiveConfig where
  Bucket := "test"
  Client := true
  Concurrency := 0
  Downloader := true
  Log := true
  Prefix := ""
  StartAfter := ""
  StopAt := ""

/-- The third configuration of `TestNewArchiveInvalidConfig`. -/
def testConfigValid : ArchiveConfig where
  Bucket := "test"
  Client := true
  Concurrency := 1
  Downloader := true
  Log := true
  Prefix := "foo"
  StartAfter := "b"
  StopAt := "d"

/-- The bytes of a downloaded object. -/
abbrev Bytes := List Nat

/-- What `a.downloader.Download` returns for one object: the bytes written to
the buffer, or an error. -/
inductive Download where
  | ok (data : Bytes)
  | error
  deriving DecidableEq, Repr

/-- An operation a download worker performs. -/
inductive WorkerOp where
  /-- `objects <- &replay.Object{Data: buff.Bytes(), Object: o}`. -/
  | emit (key : String) (data : Bytes)
  /-- `pending <- o` on the open channel (taken to have room). -/
  | requeue (key : String)
  /-- `pending <- o` on the closed channel: the Go runtime panics. -/
  | sendOnClosed (key : String)
  /-- `wg.Done()`. -/
  | done
  deriving DecidableEq, Repr

/-- Lines 116-142: the operations of one worker that receives the keys of
`taken`, in order, each with what its download returns.  `pendingClosed`
tells whether `pending` is closed when the worker leaves its loop: at a failed
download the send then panics; when the keys are exhausted the `range` ends
only on a closed channel, and otherwise the worker keeps waiting. -/
def Archive.worker (pendingClosed : Bool) : List (String × Download) → List WorkerOp
  | [] => if pendingClosed then [.done] else []
  | (key, .error) :: _ =>
    if pendingClosed then [.sendOnClosed key] else [.requeue key, .done]
  | (key, .ok data) :: rest => .emit key data :: Archive.worker pendingClosed rest

/-- Where a download worker stands. -/
inductive WorkerState where
  /-- at `for o := range pending`. -/
  | idle
  /-- downloading the object `key`. -/
  | holding (key : String)
  /-- after `wg.Done()`. -/
  | exited
  deriving DecidableEq, Repr

/-- The state of the goroutines started by `Scan` and of their two channels. -/
structure System where
  /-- the operations `scan` has still to perform on `pending`. -/
  scanner : List ChanOp
  /-- the keys `scan` has sent. -/
  sent : List String
  /-- the buffer of `pending`, oldest first. -/
  pending : List String
  pendingClosed : Bool
  workers : List WorkerState
  /-- the objects sent on `objects`. -/
  objects : List (String × Bytes)
  objectsClosed : Bool
  /-- a send on the closed `pending` has happened: the process panicked. -/
  panicked : Bool
  deriving DecidableEq, Repr

/-- A step of one goroutine. -/
inductive Action where
  /-- `scan` performs its next operation on `pending`. -/
  | scan
  /-- worker `w` receives the oldest key of `pending`. -/
  | take (w : Nat)
  /-- worker `w` finds `pending` closed and empty and leaves its loop. -/
  | drained (w : Nat)
  /-- the download of worker `w` returns. -/
  | download (w : Nat) (result : Download)
  /-- `a.wg.Wait()` returns and `objects` is closed. -/
  | barrier
  deriving DecidableEq, Repr

/-- The state in which `Scan` leaves its goroutines: `concurrency` workers at
their loop, `scan` about to list, both channels empty and open. -/
def System.init (a : Archive) (concurrency : Nat) (l : Listing) : System where
  scanner := a.scan l
  sent := []
  pending := []
  pendingClosed := false
  workers := List.replicate concurrency .idle
  objects := []
  objectsClosed := false
  panicked := false

/-- One step of the system; `none` when the goroutine cannot take the step in
this state (it is blocked, or the process has panicked).  `pending` has
capacity 1000; `objects` is taken to be drained by its reader. -/
def System.step (s : System) (act : Action) : Option System :=
  if s.panicked then none
  else
    match act with
    | .scan =>
      match s.scanner with
      | [] => none
      | .send key :: rest =>
        if s.pending.length < 1000 then
          some { s with scanner := rest, sent := s.sent ++ [key], pending := s.pending ++ [key] }
        else none
      | .close :: rest => some { s with scanner := rest, pendingClosed := true }
    | .take w =>
      match s.workers[w]?, s.pending with
      | some .idle, key :: rest =>
        some { s with pending := rest, workers := s.workers.set w (.holding key) }
      | _, _ => none
    | .drained w =>
      match s.workers[w]? with
      | some .idle =>
        if s.pendingClosed ∧ s.pending = [] then
          some { s with workers := s.workers.set w .exited }
        else none
      | _ => none
    | .download w result =>
      match s.workers[w]? with
      | some (.holding key) =>
        match result with
        | .ok data =>
          some { s with objects := s.objects ++ [(key, data)], workers := s.workers.set w .idle }
        | .error =>
          if s.pendingClosed then some { s with panicked := true }
          else if s.pending.length < 1000 then
            some { s with pending := s.pending ++ [key], workers := s.workers.set w .exited }
          else none
      | _ => none
    | .barrier =>
      if s.workers.all (fun st => st == .exited) ∧ s.objectsClosed = false then
        some { s with objectsClosed := true }
      else none

/-- The state reached from `s` by the steps `acts`, if each can be taken. -/
def System.run (s : System) : List Action → Option System
  | [] => some s
  | act :: rest =>
    match s.step act with
    | none => none
    | some s' => s'.run rest

/-- The keys that were sent on `objects`. -/
def System.emitted (s : System) : List String := s.objects.map Prod.fst

/-- What holds of every state reached by `n` workers as long as no download
fails: the process has not panicked; `scan` has its sends and its `close`
ahead of it while `pending` is open and nothing once it is closed; a worker
has left only after finding `pending` closed and empty; `objects` is closed
only after all workers have left; and every key `scan` sent is on `objects`,
in the buffer of `pending`, or held by a worker. -/
def System.Invariant (n : Nat) (s : System) : Prop :=
  s.panicked = false ∧
  s.workers.length = n ∧
  (s.pendingClosed = false →
    ∃ keys : List String, s.scanner = keys.map ChanOp.send ++ [.close]) ∧
  (s.pendingClosed = true → s.scanner = []) ∧
  (WorkerState.exited ∈ s.workers → s.pendingClosed = true ∧ s.pending = []) ∧
  (s.objectsClosed = true → ∀ w ∈ s.workers, w = .exited) ∧
  (∀ key ∈ s.sent,
    key ∈ s.emitted ∨ key ∈ s.pending ∨ WorkerState.holding key ∈ s.workers)

end S3

/-! ## json/parser.go -/

namespace Json

/-- The contents of a Go `string` or `[]byte`.  All patterns below are ASCII,
so matching by character and matching by byte agree. -/
abbrev Text := List Char

/-- A compiled `regexp.Regexp`, observed through its anchored matcher: the
length of the leftmost-first match that starts at the head of the text, if
there is one.  The patterns of this program never match the empty text. -/
abbrev Regexp := Text → Option Nat

/-- `re.ReplaceAll(src, repl)` for a template `repl` without `$`, continued
at a position that lies `skip` characters inside the previous match: the text
outside the matches is copied, every match is replaced by `repl`, and the
search resumes after the match. -/
def replaceFrom (re : Regexp) (repl : Text) : Nat → Text → Text
  | _, [] => []
  | skip + 1, _ :: cs => replaceFrom re repl skip cs
  | 0, c :: cs =>
    match re (c :: cs) with
    | some (n + 1) => repl ++ replaceFrom re repl n cs
    | _ => c :: replaceFrom re repl 0 cs

/-- `re.ReplaceAll(src, repl)`. -/
def Regexp.ReplaceAll (re : Regexp) (src repl : Text) : Text :=
  replaceFrom re repl 0 src

/-- `re.Split(s, -1)` continued `skip` characters inside the previous match,
`cur` being the piece collected since that match: the pieces between the
successive matches, the one after the last match included. -/
def splitFrom (re : Regexp) : Nat → Text → Text → List Text
  | _, [], cur => [cur]
  | skip + 1, _ :: cs, cur => splitFrom re skip cs cur
  | 0, c :: cs, cur =>
    match re (c :: cs) with
    | some (n + 1) => cur :: splitFrom re n cs []
    | _ => splitFrom re 0 cs (cur ++ [c])

/-- `re.Split(s, -1)`. -/
def Regexp.Split (re : Regexp) (s : Text) : List Text :=
  splitFrom re 0 s []

/-- Anchored matcher of a pattern that is a literal text. -/
def literal (lit : Text) : Regexp := fun s =>
  if lit.isPrefixOf s then some lit.length else none

/-- Anchored matcher of `[\r\n]*{`. -/
def lineBreaksThenOpen : Text → Option Nat
  | [] => none
  | c :: cs =>
    if c = '{' then some 1
    else if c = '\r' ∨ c = '\n' then (lineBreaksThenOpen cs).map (· + 1)
    else none

/-- Anchored matcher of `regexp.MustCompile("}[\r\n]*{")`. -/
def boundaryPattern : Regexp
  | [] => none
  | c :: cs => if c = '}' then (lineBreaksThenOpen cs).map (· + 1) else none

/-- Anchored matcher of `regexp.MustCompile("},{")`. -/
def delimiterPattern : Regexp := literal ['}', ',', '{']

/-- The outcome of `p.schema.Validate(record)`: an error, or a result that is
valid or not. -/
inductive Validation where
  | error
  | invalid
  | valid
  deriving DecidableEq, Repr

/-- A compiled `gojsonschema.Schema`, observed through `Validate`. -/
abbrev Schema := Text → Validation

/-- What a `gabs.Container` returned by `Path` holds, as far as `String`
tells values apart: a JSON string, or any other JSON value given by its
`json.Marshal` encoding. -/
inductive Value where
  | string (s : Text)
  | other (encoding : Text)
  deriving DecidableEq, Repr

/-- The answers of the JSON libraries (`gabs`, `encoding/json`) the worker
calls, for documents of type `Doc`. -/
structure Library (Doc : Type) where
  /-- `gabs.ParseJSON(b)`; `none` when it returns an error. -/
  ParseJSON : Text → Option Doc
  /-- `parsed.Path(path)`: the value held by the returned container, `none`
  when it holds nothing (no value at the path, or JSON `null`). -/
  Path : Doc → Text → Option Value
  /-- The escaping `json.Marshal` applies to the characters of a string. -/
  escape : Text → Text

/-- `Container.String()` of `gabs`, that is `string(g.Bytes())`: `Bytes` returns
`json.Marshal(g.object)` when `g.Data() != nil`, which for a string is the
escaped string enclosed in double quotes, and the text of an empty object,
an opening and a closing brace, when the container holds nothing.  The result
is never the empty string. -/
def Library.String {Doc : Type} (lib : Library Doc) : Option Value → Text
  | none => ['{', '}']
  | some (.string s) => '"' :: (lib.escape s ++ ['"'])
  | some (.other encoding) => encoding

/-- The fields of `kinesis.PutRecordsRequestEntry` set by the worker. -/
structure Entry where
  PartitionKey : Text
  Data : Text
  deriving DecidableEq, Repr

/-- `ParserConfig`; `Log` tells whether a logger is set, `Schema` is the
schema reference. -/
structure ParserConfig where
  Concurrency : Int
  Delimiter : Option Regexp
  Log : Bool
  PartitionKey : Text
  Replace : Option Regexp
  ReplaceWith : Text
  Schema : Text

/-- `NewParserConfig()`. -/
def NewParserConfig : ParserConfig where
  Concurrency := 1
  Delimiter := some delimiterPattern
  Log := true
  PartitionKey := []
  Replace := some boundaryPattern
  ReplaceWith := ['}', '}', ',', '{', '{']
  Schema := []

/-- The fields of `Parser` read by the worker. -/
structure Parser where
  concurrency : Int
  delimiter : Option Regexp
  partitionKey : Text
  replace : Option Regexp
  replaceWith : Text
  schema : Option Schema

/-- `validate.V.Struct(c)` for the tags of `ParserConfig`: `Concurrency` is
`required,min=1`, `Log` and `PartitionKey` are `required`. -/
def ParserConfig.valid (c : ParserConfig) : Bool :=
  decide (c.Concurrency ≠ 0) && decide (1 ≤ c.Concurrency) && c.Log &&
    decide (c.PartitionKey ≠ [])

/-- `NewParser(c)`, lines 37-70; `loadSchema` stands for
`gojsonschema.NewSchema(gojsonschema.NewReferenceLoader(ref))`.  `none` is the
returned error. -/
def NewParser (loadSchema : Text → Option Schema) (c : ParserConfig) : Option Parser :=
  if ¬ c.valid then none
  else
    let p : Parser :=
      { concurrency := c.Concurrency, delimiter := none, partitionKey := c.PartitionKey,
        replace := none, replaceWith := [], schema := none }
    let withSchema : Option Parser :=
      if c.Schema ≠ [] then
        match loadSchema c.Schema with
        | none => none
        | some schema => some { p with schema := some schema }
      else some p
    match withSchema with
    | none => none
    | some p =>
      let p := match c.Delimiter with
        | some d => { p with delimiter := some d }
        | none => p
      let p := match c.Replace with
        | some r => if c.ReplaceWith ≠ [] then
            { p with replace := some r, replaceWith := c.ReplaceWith } else p
        | none => p
      some p

/-- Lines 89-102 of `worker`: the record set built from the data of one
object. -/
def Parser.records (p : Parser) (data : Text) : List Text :=
  let buff := match p.replace with
    | some re => re.ReplaceAll data p.replaceWith
    | none => data
  match p.delimiter with
  | some re => re.Split buff
  | none => [buff]

/-- Lines 106-138 of `worker`, the body of `for _, raw := range records`:
the entry built for `raw`, `none` when a `continue` is reached. -/
def Parser.record {Doc : Type} (lib : Library Doc) (p : Parser) (raw : Text) :
    Option Entry :=
  let skip : Bool :=
    match p.schema with
    | some schema =>
      match schema raw with
      | .error => true
      | .invalid => true
      | .valid => false
    | none => false
  if skip then none
  else
    match lib.ParseJSON raw with
    | none => none
    | some parsed =>
      let partitionKey := lib.String (lib.Path parsed p.partitionKey)
      if partitionKey = [] then none
      else some { PartitionKey := partitionKey, Data := raw }

/-- Lines 105-140 of `worker`: the loop over the records, `sent` being the
entries committed to the `entries` channel so far. -/
def Parser.emit {Doc : Type} (lib : Library Doc) (p : Parser) :
    List Text → List Entry → List Entry
  | [], sent => sent
  | raw :: rest, sent =>
    match p.record lib raw with
    | none => p.emit lib rest sent
    | some entry => p.emit lib rest (sent ++ [entry])

/-- Lines 87-141 of `worker` for one object `o` with `o.Data = data`: the
entries committed to the `entries` channel. -/
def Parser.worker {Doc : Type} (lib : Library Doc) (p : Parser) (data : Text) :
    List Entry :=
  p.emit lib (p.records data) []

/-- The partition key a document yields, in the words of the specification:
the value it holds at the partition-key path, a string as it stands and any
other value by its JSON text; the empty text when it holds nothing there. -/
def yieldedKey : Option Value → Text
  | none => []
  | some (.string s) => s
  | some (.other encoding) => encoding

/-- The candidate passes, in the words of the specification: it is valid for
the schema when one is configured, it parses as JSON, and it yields a
non-empty partition key. -/
def passes {Doc : Type} (lib : Library Doc) (p : Parser) (raw : Text) : Bool :=
  (match p.schema with
    | some schema => schema raw == .valid
    | none => true) &&
  (match lib.ParseJSON raw with
    | some parsed => yieldedKey (lib.Path parsed p.partitionKey) != []
    | none => false)

/-- The partition key yielded by a candidate that parses. -/
def partitionKeyOf {Doc : Type} (lib : Library Doc) (p : Parser) (raw : Text) : Text :=
  match lib.ParseJSON raw with
  | some parsed => yieldedKey (lib.Path parsed p.partitionKey)
  | none => []

/-- The entries the specification expects for a list of candidates: one entry
per candidate that passes, in candidate order, its data being the candidate
and its partition key the key the candidate yields. -/
def expectedEntries {Doc : Type} (lib : Library Doc) (p : Parser)
    (candidates : List Text) : List Entry :=
  candidates.filterMap (fun raw =>
    if passes lib p raw then
      some { PartitionKey := partitionKeyOf lib p raw, Data := raw }
    else none)

/-- The payload made of the text `first` followed by the texts of `more`, each
preceded by its separator. -/
def payload (first : Text) (more : List (Text × Text)) : Text :=
  first ++ (more.map (fun st => st.1 ++ st.2)).flatten

/-- The pattern `re` matches nowhere inside `t`. -/
def matchesNowhere (re : Regexp) : Text → Bool
  | [] => (re []).isNone
  | c :: cs => (re (c :: cs)).isNone && matchesNowhere re cs

/-- A JSON object text for the purpose of splitting: it begins with `{`, ends
with `}`, and contains neither a `}` followed by line breaks and `{` nor the
text `},{`. -/
def PlainObjectText (t : Text) : Prop :=
  t.head? = some '{' ∧ t.getLast? = some '}' ∧
    matchesNowhere boundaryPattern t = true ∧ matchesNowhere delimiterPattern t = true

instance (t : Text) : Decidable (PlainObjectText t) := by
  unfold PlainObjectText; infer_instance

/-- The text consists of CR and LF characters only. -/
def LineBreaks (s : Text) : Prop := ∀ c ∈ s, c = '\r' ∨ c = '\n'

instance (s : Text) : Decidable (LineBreaks s) := by
  unfold LineBreaks; infer_instance

/-- The text `{"a":1}`. -/
def textA : Text := ['{', '"', 'a', '"', ':', '1', '}']

/-- The text `{"b":2}`. -/
def textB : Text := ['{', '"', 'b', '"', ':', '2', '}']

/-- The text `{"id":"a"}`. -/
def textId : Text := ['{', '"', 'i', 'd', '"', ':', '"', 'a', '"', '}']

/-- The text `{"a":[{"x":1},{"y":2}]}`, a single JSON object document. -/
def textNested : Text :=
  ['{', '"', 'a', '"', ':', '[', '{', '"', 'x', '"', ':', '1', '}', ',',
    '{', '"', 'y', '"', ':', '2', '}', ']', '}']

/-- Documents of the examples: the members of a JSON object. -/
abbrev Members := List (Text × Value)

/-- The answers of the libraries on the example texts: `{"a":1}` decodes to an
object with the member `a`, `{"id":"a"}` to an object with the member `id`
holding the string `a`; a path is looked up among the members; the letters of
the examples need no escaping. -/
def exampleLibrary : Library Members where
  ParseJSON := fun raw =>
    if raw = textA then some [(['a'], .other ['1'])]
    else if raw = textId then some [(['i', 'd'], .string ['a'])]
    else none
  Path := fun doc path => doc.lookup path
  escape := fun s => s

/-- The text `{"id":""}`. -/
def textEmptyId : Text := ['{', '"', 'i', 'd', '"', ':', '"', '"', '}']

/-- The answers of the libraries on the text `{"id":""}`: it decodes to an
object with the member `id` holding the empty string; a path is looked up among
the members; the empty string needs no escaping. -/
def emptyIdLibrary : Library Members where
  ParseJSON := fun raw =>
    if raw = textEmptyId then some [(['i', 'd'], .string [])] else none
  Path := fun doc path => doc.lookup path
  escape := fun s => s

/-- A parser as `createJSONParser` builds it from the defaults of
`NewParserConfig`, with the partition-key path `id` and no schema. -/
def exampleParser : Parser where
  concurrency := 1
  delimiter := some delimiterPattern
  partitionKey := ['i', 'd']
  replace := some boundaryPattern
  replaceWith := ['}', '}', ',', '{', '{']
  schema := none

end Json


/-! ## cmd/root.go -/

namespace Cmd

/-- The resolved configuration as `viper` answers for it: the string settings
that are set, and the integer settings. -/
structure Settings where
  strings : String → Option String
  ints : String → Int

/-- `viper.IsSet(key)`. -/
def Settings.IsSet (v : Settings) (key : String) : Bool := (v.strings key).isSome

/-- `viper.GetString(key)`: the empty string when the key is not set. -/
def Settings.GetString (v : Settings) (key : String) : String := (v.strings key).getD ""

/-- `viper.GetInt(key)`. -/
def Settings.GetInt (v : Settings) (key : String) : Int := v.ints key

/-- `createArchive`, lines 64-86, for a client, a downloader and a logger that
are set: the configuration it fills in, field by field. -/
def archiveConfig (v : Settings) : S3.ArchiveConfig :=
  let c := S3.NewArchiveConfig
  let c := { c with Bucket := v.GetString "s3.bucket" }
  let c := { c with Concurrency := v.GetInt "s3.concurrency" }
  let c := { c with Client := true }
  let c := { c with Downloader := true }
  let c := { c with Log := true }
  let c := if v.IsSet "s3.prefix" then { c with Prefix := v.GetString "s3.prefix" } else c
  let c := if v.IsSet "s3.start_after" then
    { c with StartAfter := v.GetString "s3.start_after" } else c
  let c := if v.IsSet "s3.start_after" then
    { c with StartAfter := v.GetString "s3.start_after" } else c
  c

/-- `createArchive`: `none` when `NewArchive` returns an error and the process
exits through `Fatalln`. -/
def createArchive (v : Settings) : Option S3.ArchiveValue :=
  S3.NewArchive (archiveConfig v)

/-- A resolved configuration with bucket `bucket`, concurrency 4 and the
stop-at key `c`. -/
def settingsWithStopAt : Settings where
  strings := fun key =>
    if key = "s3.bucket" then some "bucket"
    else if key = "s3.stop_at" then some "c"
    else none
  ints := fun key => if key = "s3.concurrency" then 4 else 0

end Cmd

/-! ## Theorems: kinesis/producer.go -/

namespace Producer

theorem atErrorPositions_nil_left {α : Type} (results : List PutRecordsResultEntry) :
    atErrorPositions ([] : List α) results = [] := by
  simp [atErrorPositions]

theorem atErrorPositions_cons {α : Type} (r : α) (rs : List α)
    (e : PutRecordsResultEntry) (es : List PutRecordsResultEntry) :
    atErrorPositions (r :: rs) (e :: es) =
      if e.ErrorCode.isSome then r :: atErrorPositions rs es else atErrorPositions rs es := by
  unfold atErrorPositions
  by_cases h : e.ErrorCode.isSome <;> simp [h]

theorem atErrorPositions_length_le {α : Type} (records : List α)
    (results : List PutRecordsResultEntry) :
    (atErrorPositions records results).length ≤ records.length := by
  unfold atErrorPositions
  rw [List.length_map]
  refine le_trans (List.length_filter_le _ _) ?_
  rw [List.length_zip]
  exact Nat.min_le_left _ _

/-- When the range loop does not panic, `failed` grows by the entries at the
error positions. -/
theorem collectFailed_eq_some {α : Type} (records : List α) :
    ∀ (results : List PutRecordsResultEntry) (i : Nat) (acc failed : List α),
      collectFailed records results i acc = some failed →
        failed = acc ++ atErrorPositions (records.drop i) results := by
  intro results
  induction results with
  | nil =>
    intro i acc failed h
    simp [collectFailed] at h
    simp [atErrorPositions, h]
  | cons e es ih =>
    intro i acc failed h
    unfold collectFailed at h
    by_cases he : e.ErrorCode.isSome
    · rw [if_pos he] at h
      cases hr : records[i]? with
      | none => rw [hr] at h; simp at h
      | some r =>
        rw [hr] at h
        have hlt : i < records.length := by
          rcases List.getElem?_eq_some_iff.mp hr with ⟨hlt, _⟩
          exact hlt
        have hdrop : records.drop i = r :: records.drop (i + 1) := by
          rw [List.drop_eq_getElem_cons hlt]
          congr 1
          rcases List.getElem?_eq_some_iff.mp hr with ⟨_, hv⟩
          exact hv
        rw [ih (i + 1) (acc ++ [r]) failed h, hdrop, atErrorPositions_cons, if_pos he]
        simp
    · rw [if_neg he] at h
      rw [ih (i + 1) acc failed h]
      cases hd : records.drop i with
      | nil =>
        have : records.drop (i + 1) = [] := by
          rw [List.drop_eq_nil_iff] at hd ⊢
          omega
        rw [this, atErrorPositions_nil_left, atErrorPositions_nil_left]
      | cons r rs =>
        have : records.drop (i + 1) = rs := by
          rw [← List.drop_drop, hd]
          rfl
        rw [this, atErrorPositions_cons, if_neg he]

/-- With no more results than records the range loop never panics. -/
theorem collectFailed_of_length_le {α : Type} (records : List α) :
    ∀ (results : List PutRecordsResultEntry) (i : Nat) (acc : List α),
      results.length + i ≤ records.length →
        collectFailed records results i acc =
          some (acc ++ atErrorPositions (records.drop i) results) := by
  intro results
  induction results with
  | nil => intro i acc _; simp [collectFailed, atErrorPositions]
  | cons e es ih =>
    intro i acc hlen
    simp only [List.length_cons] at hlen
    have hlt : i < records.length := by omega
    have hdrop : records.drop i = records[i] :: records.drop (i + 1) :=
      List.drop_eq_getElem_cons hlt
    unfold collectFailed
    rw [hdrop, atErrorPositions_cons]
    by_cases he : e.ErrorCode.isSome
    · rw [if_pos he, if_pos he, List.getElem?_eq_getElem hlt]
      simp only
      rw [ih (i + 1) (acc ++ [records[i]]) (by omega)]
      simp
    · rw [if_neg he, if_neg he]
      exact ih (i + 1) acc (by omega)

theorem failedRecords_eq_some {α : Type} (records : List α) (out : PutRecordsOutput)
    (failed : List α) (h : failedRecords records out = some failed) :
    failed = if out.FailedRecordCount.isSome then atErrorPositions records out.Records
      else [] := by
  unfold failedRecords at h
  by_cases hc : out.FailedRecordCount.isSome
  · rw [if_pos hc] at h
    rw [if_pos hc]
    simpa using collectFailed_eq_some records out.Records 0 [] failed h
  · rw [if_neg hc] at h
    rw [if_neg hc]
    simpa using h.symm

theorem failedRecords_length_le {α : Type} (records : List α) (out : PutRecordsOutput)
    (failed : List α) (h : failedRecords records out = some failed) :
    failed.length ≤ records.length := by
  rw [failedRecords_eq_some records out failed h]
  split
  · exact atErrorPositions_length_le _ _
  · simp


theorem mem_atErrorPositions {α : Type} (records : List α)
    (results : List PutRecordsResultEntry) (j : Nat) (e : α)
    (res : PutRecordsResultEntry) (he : records[j]? = some e)
    (hres : results[j]? = some res) (herr : res.ErrorCode.isSome = true) :
    e ∈ atErrorPositions records results := by
  unfold atErrorPositions
  rw [List.mem_map]
  refine ⟨(e, res), ?_, rfl⟩
  rw [List.mem_filter]
  refine ⟨?_, by simpa using herr⟩
  have hz : (records.zip results)[j]? = some (e, res) := by
    rw [List.getElem?_zip_eq_some]
    exact ⟨he, hres⟩
  exact List.getElem?_mem hz

theorem acknowledged_cons {α : Type} (c : List α × Attempt)
    (calls : List (List α × Attempt)) (e : α) (h : Acknowledged calls e) :
    Acknowledged (c :: calls) e := by
  obtain ⟨c', hc', rest⟩ := h
  exact ⟨c', List.mem_cons_of_mem _ hc', rest⟩

/-- Every entry of the record set is acknowledged when the loop is left
through its condition, provided each output answers its request. -/
theorem putLoop_acknowledged {α : Type} (attempts : List Attempt) :
    ∀ (records : List α),
      (putLoop records attempts).status = .batchDone →
      (∀ c ∈ (putLoop records attempts).calls, ∀ out,
        c.2 = .response out → AnswersRequest c.1 out) →
      ∀ e ∈ records, Acknowledged (putLoop records attempts).calls e := by
  induction attempts with
  | nil =>
    intro records hdone _ e he
    cases records with
    | nil => simp at he
    | cons r rs => simp [putLoop] at hdone
  | cons a rest ih =>
    intro records hdone hwf e he
    cases records with
    | nil => simp at he
    | cons r rs =>
      cases a with
      | requestError stop =>
        cases stop with
        | true => simp [putLoop] at hdone
        | false =>
          simp only [putLoop, Bool.false_eq_true, if_false, Run.push] at hdone hwf ⊢
          refine acknowledged_cons _ _ _ (ih (r :: rs) hdone ?_ e he)
          intro c hc out hout
          exact hwf c (List.mem_cons_of_mem _ hc) out hout
      | response out =>
        cases hf : failedRecords (r :: rs) out with
        | none => simp [putLoop, hf] at hdone
        | some failed =>
          simp only [putLoop, hf, Run.push] at hdone hwf ⊢
          have hans : AnswersRequest (r :: rs) out :=
            hwf _ (List.mem_cons_self _ _) out rfl
          obtain ⟨j, hj⟩ := List.getElem?_of_mem he
          have hjlt : j < out.Records.length := by
            have := (List.getElem?_eq_some_iff.mp hj).1
            exact lt_of_lt_of_le this hans.1
          have hres : out.Records[j]? = some out.Records[j] :=
            List.getElem?_eq_getElem hjlt
          cases hcode : (out.Records[j]).ErrorCode with
          | none =>
            exact ⟨_, List.mem_cons_self _ _, out, rfl, j, out.Records[j], hj, hres, hcode⟩
          | some code =>
            have hcount : out.FailedRecordCount.isSome = true := by
              cases hc : out.FailedRecordCount with
              | none =>
                have := hans.2 hc _ (List.getElem_mem hjlt)
                rw [hcode] at this
                cases this
              | some n => rfl
            have hfailed := failedRecords_eq_some _ _ _ hf
            rw [if_pos hcount] at hfailed
            have hmem : e ∈ failed := by
              rw [hfailed]
              exact mem_atErrorPositions _ _ j e _ hj hres (by rw [hcode]; rfl)
            refine acknowledged_cons _ _ _ (ih failed hdone ?_ e hmem)
            intro c hc out' hout'
            exact hwf c (List.mem_cons_of_mem _ hc) out' hout'

/-- C1: in the loop of `process`, for a record set `R` and an output that
reports a failed count (in particular a nonzero one) and carries one result per
entry of `R`, the slice `failed` is exactly the sublist of `R` at the positions
whose result carries an error code, in order and unchanged; the loop goes on
with that sublist as `params.Records`, so it is the record set of the next
call, and entries at positions without an error code are not in it. -/
theorem process_next_request_is_failed_sublist {α : Type} (R : List α)
    (out : PutRecordsOutput) (n : Nat) (hcount : out.FailedRecordCount = some n)
    (hlen : out.Records.length = R.length) (hR : R ≠ []) :
    failedRecords R out = some (atErrorPositions R out.Records) ∧
    (∀ rest : List Attempt, putLoop R (.response out :: rest) =
      (putLoop (atErrorPositions R out.Records) rest).push (R, .response out)) ∧
    (∀ (a : Attempt) (rest : List Attempt), atErrorPositions R out.Records ≠ [] →
      (putLoop R (.response out :: a :: rest)).calls[1]? =
        some (atErrorPositions R out.Records, a)) := by
  have hf : failedRecords R out = some (atErrorPositions R out.Records) := by
    unfold failedRecords
    rw [hcount]
    simpa using collectFailed_of_length_le R out.Records 0 [] (by simp [hlen])
  have hstep : ∀ rest : List Attempt, putLoop R (.response out :: rest) =
      (putLoop (atErrorPositions R out.Records) rest).push (R, .response out) := by
    intro rest
    cases R with
    | nil => exact absurd rfl hR
    | cons r rs => simp only [putLoop, hf]
  refine ⟨hf, hstep, ?_⟩
  intro a rest hne
  rw [hstep]
  cases hfl : atErrorPositions R out.Records with
  | nil => exact absurd hfl hne
  | cons f fs =>
    cases a with
    | requestError stop =>
      cases stop <;> simp [putLoop, Run.push]
    | response out' =>
      cases hf' : failedRecords (f :: fs) out' <;> simp [putLoop, Run.push, hf']

theorem process_next_request_is_failed_sublist_witness :
    failedRecords ["r0", "r1", "r2"] ⟨some 1, [⟨none⟩, ⟨some "Throttled"⟩, ⟨none⟩]⟩ =
        some ["r1"] ∧
      (putLoop ["r0", "r1", "r2"]
        [.response ⟨some 1, [⟨none⟩, ⟨some "Throttled"⟩, ⟨none⟩]⟩,
          .response ⟨some 0, [⟨none⟩]⟩]).calls[1]? =
        some (["r1"], .response ⟨some 0, [⟨none⟩]⟩) := by
  have h := process_next_request_is_failed_sublist ["r0", "r1", "r2"]
    ⟨some 1, [⟨none⟩, ⟨some "Throttled"⟩, ⟨none⟩]⟩ 1 rfl rfl (by decide)
  have he : atErrorPositions ["r0", "r1", "r2"]
      [(⟨none⟩ : PutRecordsResultEntry), ⟨some "Throttled"⟩, ⟨none⟩] = ["r1"] := by
    decide
  refine ⟨?_, ?_⟩
  · rw [← he]; exact h.1
  · rw [← he]; exact h.2.2 _ [] (by rw [he]; decide)

/-- C2, as stated, fails: an output without a failed count
(`FailedRecordCount == nil`) whose only result carries an error code empties
the record set, so the batch is finished although its entry was never
acknowledged. -/
theorem process_batch_done_without_acknowledgement :
    (putLoop (["r0"].enum)
        [.response ⟨none, [⟨some "ProvisionedThroughputExceededException"⟩]⟩]).status
      = .batchDone ∧
    ¬ Acknowledged (putLoop (["r0"].enum)
        [.response ⟨none, [⟨some "ProvisionedThroughputExceededException"⟩]⟩]).calls
      (0, "r0") := by
  refine ⟨by decide, ?_⟩
  rintro ⟨c, hc, out, hout, j, res, _, hres, hnone⟩
  have hcalls : (putLoop (["r0"].enum)
      [.response ⟨none, [⟨some "ProvisionedThroughputExceededException"⟩]⟩]).calls =
      [([(0, "r0")], .response ⟨none, [⟨some "ProvisionedThroughputExceededException"⟩]⟩)] := by
    decide
  rw [hcalls, List.mem_singleton] at hc
  subst hc
  injection hout with hout
  subst hout
  cases j with
  | zero =>
    simp only [List.getElem?_cons_zero, Option.some.injEq] at hres
    subst hres
    cases hnone
  | succ k => simp at hres

/-- C2 (amended): when the loop of `process` finishes a batch whose outputs each
answer their request (a result for every entry, and a failed count whenever a
result carries an error code), every entry of the batch, identified by its
position, was acknowledged: some call received an output in which the entry's
position in that call carries no error code. -/
theorem process_batch_done_all_acknowledged {α : Type} (batch : List α)
    (attempts : List Attempt)
    (hdone : (putLoop batch.enum attempts).status = .batchDone)
    (hans : ∀ c ∈ (putLoop batch.enum attempts).calls, ∀ out,
      c.2 = .response out → AnswersRequest c.1 out) :
    ∀ (i : Nat) (e : α), batch[i]? = some e →
      Acknowledged (putLoop batch.enum attempts).calls (i, e) := by
  intro i e hie
  exact putLoop_acknowledged attempts batch.enum hdone hans (i, e)
    (List.mk_mem_enum_iff_getElem?.mpr hie)


theorem process_batch_done_all_acknowledged_witness :
    Acknowledged (putLoop (["r0", "r1", "r2"].enum)
      [.response ⟨some 1, [⟨none⟩, ⟨some "Throttled"⟩, ⟨none⟩]⟩,
        .requestError false,
        .response ⟨some 0, [⟨none⟩]⟩]).calls (1, "r1") := by
  refine process_batch_done_all_acknowledged ["r0", "r1", "r2"] _ (by decide) ?_ 1 "r1" rfl
  intro c hc out hout
  have hcalls : (putLoop (["r0", "r1", "r2"].enum)
      [.response ⟨some 1, [⟨none⟩, ⟨some "Throttled"⟩, ⟨none⟩]⟩,
        .requestError false,
        .response ⟨some 0, [⟨none⟩]⟩]).calls =
      [([(0, "r0"), (1, "r1"), (2, "r2")],
          .response ⟨some 1, [⟨none⟩, ⟨some "Throttled"⟩, ⟨none⟩]⟩),
        ([(1, "r1")], .requestError false),
        ([(1, "r1")], .response ⟨some 0, [⟨none⟩]⟩)] := by
    decide
  rw [hcalls] at hc
  simp only [List.mem_cons, List.mem_singleton, List.not_mem_nil, or_false] at hc
  rcases hc with rfl | rfl | rfl
  · injection hout with hout
    subst hout
    exact ⟨by decide, by intro h; cases h⟩
  · cases hout
  · injection hout with hout
    subst hout
    exact ⟨by decide, by intro h; cases h⟩

/-- The first call of the loop carries the record set the loop was entered
with; without any call the loop is done or still waiting. -/
theorem putLoop_first_call {α : Type} (records : List α) (attempts : List Attempt) :
    (∀ c, (putLoop records attempts).calls[0]? = some c → c.1 = records) ∧
    ((putLoop records attempts).calls[0]? = none →
      (records = [] ∧ (putLoop records attempts).status = .batchDone) ∨
      (putLoop records attempts).status = .waiting) := by
  cases records with
  | nil => simp [putLoop]
  | cons r rs =>
    cases attempts with
    | nil => simp [putLoop]
    | cons a rest =>
      cases a with
      | requestError stop => cases stop <;> simp [putLoop, Run.push]
      | response out =>
        cases hf : failedRecords (r :: rs) out <;> simp [putLoop, Run.push, hf]

theorem putLoop_after_request_error {α : Type} (attempts : List Attempt) :
    ∀ (records : List α) (k : Nat) (Rk : List α) (stop : Bool),
      (putLoop records attempts).calls[k]? = some (Rk, .requestError stop) →
      (stop = false →
        (∃ a, (putLoop records attempts).calls[k + 1]? = some (Rk, a)) ∨
        ((putLoop records attempts).calls[k + 1]? = none ∧
          (putLoop records attempts).status = .waiting)) ∧
      (stop = true →
        (putLoop records attempts).calls[k + 1]? = none ∧
          (putLoop records attempts).status = .fatal) := by
  induction attempts with
  | nil =>
    intro records k Rk stop h
    cases records <;> simp [putLoop] at h
  | cons a rest ih =>
    intro records k Rk stop h
    cases records with
    | nil => simp [putLoop] at h
    | cons r rs =>
      cases a with
      | requestError stop' =>
        cases stop' with
        | true =>
          cases k with
          | zero =>
            simp only [putLoop, if_true, List.getElem?_cons_zero, Option.some.injEq,
              Prod.mk.injEq, Attempt.requestError.injEq] at h
            obtain ⟨_, rfl⟩ := h
            simp [putLoop]
          | succ k => simp [putLoop] at h
        | false =>
          simp only [putLoop, Bool.false_eq_true, if_false, Run.push] at h ⊢
          cases k with
          | zero =>
            simp only [List.getElem?_cons_zero, Option.some.injEq, Prod.mk.injEq,
              Attempt.requestError.injEq] at h
            obtain ⟨rfl, rfl⟩ := h
            refine ⟨fun _ => ?_, fun hs => by cases hs⟩
            simp only [List.getElem?_cons_succ]
            have hfirst := putLoop_first_call (r :: rs) rest
            cases hc : (putLoop (r :: rs) rest).calls[0]? with
            | none =>
              right
              refine ⟨rfl, ?_⟩
              rcases hfirst.2 hc with ⟨hnil, _⟩ | hw
              · cases hnil
              · exact hw
            | some c =>
              left
              refine ⟨c.2, ?_⟩
              have := hfirst.1 c hc
              rw [← this]
          | succ k =>
            simp only [List.getElem?_cons_succ] at h ⊢
            exact ih (r :: rs) k Rk stop h
      | response out =>
        cases hf : failedRecords (r :: rs) out with
        | none =>
          simp only [putLoop, hf] at h
          cases k with
          | zero => simp at h
          | succ k => simp at h
        | some failed =>
          simp only [putLoop, hf, Run.push] at h ⊢
          cases k with
          | zero => simp at h
          | succ k =>
            simp only [List.getElem?_cons_succ] at h ⊢
            exact ih failed k Rk stop h

theorem putLoop_fatal_last {α : Type} (attempts : List Attempt) :
    ∀ (records : List α), (putLoop records attempts).status = .fatal →
      ∃ Rk, (putLoop records attempts).calls.getLast? = some (Rk, .requestError true) := by
  induction attempts with
  | nil => intro records h; cases records <;> simp [putLoop] at h
  | cons a rest ih =>
    intro records h
    cases records with
    | nil => simp [putLoop] at h
    | cons r rs =>
      cases a with
      | requestError stop =>
        cases stop with
        | true => exact ⟨r :: rs, by simp [putLoop]⟩
        | false =>
          simp only [putLoop, Bool.false_eq_true, if_false, Run.push] at h ⊢
          obtain ⟨Rk, hk⟩ := ih (r :: rs) h
          exact ⟨Rk, by rw [List.getLast?_cons, hk]; rfl⟩
      | response out =>
        cases hf : failedRecords (r :: rs) out with
        | none => simp [putLoop, hf] at h
        | some failed =>
          simp only [putLoop, hf, Run.push] at h ⊢
          obtain ⟨Rk, hk⟩ := ih failed h
          exact ⟨Rk, by rw [List.getLast?_cons, hk]; rfl⟩

/-- While the backoff policy lets `Retry` continue, each failed call is made
with the record set the loop holds, and the loop goes on with that set. -/
theorem putLoop_request_errors {α : Type} (r : α) (rs : List α) (rest : List Attempt) :
    ∀ k : Nat,
      (putLoop (r :: rs) (List.replicate k (.requestError false) ++ rest)).calls =
        List.replicate k (r :: rs, Attempt.requestError false) ++
          (putLoop (r :: rs) rest).calls ∧
      (putLoop (r :: rs) (List.replicate k (.requestError false) ++ rest)).status =
        (putLoop (r :: rs) rest).status := by
  intro k
  induction k with
  | zero => exact ⟨rfl, rfl⟩
  | succ k ih =>
    simp only [List.replicate_succ, List.cons_append, putLoop, Bool.false_eq_true, if_false,
      Run.push, List.append_eq, List.cons.injEq, true_and]
    exact ih

/-- A batch is finished only after a response to the record set the loop was
entered with. -/
theorem putLoop_done_has_response {α : Type} (attempts : List Attempt) :
    ∀ (records : List α), (putLoop records attempts).status = .batchDone →
      records = [] ∨ ∃ out, (records, Attempt.response out) ∈ (putLoop records attempts).calls := by
  induction attempts with
  | nil =>
    intro records h
    cases records with
    | nil => exact Or.inl rfl
    | cons r rs => simp [putLoop] at h
  | cons a rest ih =>
    intro records h
    cases records with
    | nil => exact Or.inl rfl
    | cons r rs =>
      right
      cases a with
      | requestError stop =>
        cases stop with
        | true => simp [putLoop] at h
        | false =>
          simp only [putLoop, Bool.false_eq_true, if_false, Run.push] at h ⊢
          rcases ih (r :: rs) h with hnil | ⟨out, hout⟩
          · cases hnil
          · exact ⟨out, List.mem_cons_of_mem _ hout⟩
      | response out =>
        cases hf : failedRecords (r :: rs) out with
        | none => simp [putLoop, hf] at h
        | some failed =>
          simp only [putLoop, hf, Run.push]
          exact ⟨out, List.mem_cons_self _ _⟩

/-- The calls of the loop observe the attempts in order, from the first on. -/
theorem putLoop_calls_prefix {α : Type} (attempts : List Attempt) :
    ∀ (records : List α),
      (putLoop records attempts).calls.map Prod.snd <+: attempts := by
  induction attempts with
  | nil => intro records; cases records <;> simp [putLoop]
  | cons a rest ih =>
    intro records
    cases records with
    | nil => simp [putLoop]
    | cons r rs =>
      cases a with
      | requestError stop =>
        cases stop with
        | true => simp [putLoop]
        | false =>
          simp only [putLoop, Bool.false_eq_true, if_false, Run.push, List.map_cons]
          exact (List.prefix_cons_inj _).mpr (ih (r :: rs))
      | response out =>
        cases hf : failedRecords (r :: rs) out with
        | none => simp [putLoop, hf]
        | some failed =>
          simp only [putLoop, hf, Run.push, List.map_cons]
          exact (List.prefix_cons_inj _).mpr (ih failed)

/-- The loop is still calling only when every attempt of the environment has
been observed by a call. -/
theorem putLoop_waiting_exhausted {α : Type} (attempts : List Attempt) :
    ∀ (records : List α), (putLoop records attempts).status = .waiting →
      (putLoop records attempts).calls.map Prod.snd = attempts := by
  induction attempts with
  | nil => intro records h; cases records <;> simp [putLoop] at h ⊢
  | cons a rest ih =>
    intro records h
    cases records with
    | nil => simp [putLoop] at h
    | cons r rs =>
      cases a with
      | requestError stop =>
        cases stop with
        | true => simp [putLoop] at h
        | false =>
          simp only [putLoop, Bool.false_eq_true, if_false, Run.push, List.map_cons] at h ⊢
          rw [ih (r :: rs) h]
      | response out =>
        cases hf : failedRecords (r :: rs) out with
        | none => simp [putLoop, hf] at h
        | some failed =>
          simp only [putLoop, hf, Run.push, List.map_cons] at h ⊢
          rw [ih failed h]

/-- C4: in the loop of `process`, for every non-empty record set `R`:
after any number of calls that fail at the request level while the backoff
policy lets `Retry` continue, every one of these calls was made with the
identical `R` and the loop goes on with `R`; when the backoff policy then
stops, that call too carries `R`, no further call is made and the loop is left
by the fatal abort; when the attempts end, the loop is still calling with `R`.
In every run, a call that failed at the request level is followed by a call
with the same record set unless the backoff stopped; a fatal abort only
follows a stopped request failure; a batch is finished only after a response
to `R`; and the loop is still calling only when all attempts are used up. -/
theorem process_request_failure_keeps_record_set {α : Type} (records : List α)
    (attempts : List Attempt) :
    (∀ (k : Nat) (Rk : List α) (stop : Bool),
      (putLoop records attempts).calls[k]? = some (Rk, .requestError stop) →
      (stop = false →
        (∃ a, (putLoop records attempts).calls[k + 1]? = some (Rk, a)) ∨
        ((putLoop records attempts).calls[k + 1]? = none ∧
          (putLoop records attempts).status = .waiting)) ∧
      (stop = true →
        (putLoop records attempts).calls[k + 1]? = none ∧
          (putLoop records attempts).status = .fatal)) ∧
    ((putLoop records attempts).status = .fatal →
      ∃ Rk, (putLoop records attempts).calls.getLast? = some (Rk, .requestError true)) ∧
    (∀ (r : α) (rs : List α) (k : Nat) (rest : List Attempt),
      (putLoop (r :: rs) (List.replicate k (.requestError false) ++ rest)).calls =
        List.replicate k (r :: rs, Attempt.requestError false) ++
          (putLoop (r :: rs) rest).calls ∧
      (putLoop (r :: rs) (List.replicate k (.requestError false) ++ rest)).status =
        (putLoop (r :: rs) rest).status) ∧
    (∀ (r : α) (rs : List α) (k : Nat) (rest : List Attempt),
      (putLoop (r :: rs)
          (List.replicate k (.requestError false) ++ .requestError true :: rest)).calls =
        List.replicate k (r :: rs, Attempt.requestError false) ++
          [(r :: rs, .requestError true)] ∧
      (putLoop (r :: rs)
          (List.replicate k (.requestError false) ++ .requestError true :: rest)).status =
        .fatal) ∧
    (∀ (r : α) (rs : List α) (k : Nat),
      (putLoop (r :: rs) (List.replicate k (.requestError false))).calls =
        List.replicate k (r :: rs, Attempt.requestError false) ∧
      (putLoop (r :: rs) (List.replicate k (.requestError false))).status = .waiting) ∧
    ((putLoop records attempts).status = .batchDone →
      records = [] ∨
        ∃ out, (records, Attempt.response out) ∈ (putLoop records attempts).calls) ∧
    ((putLoop records attempts).status = .waiting →
      records ≠ [] ∧ (putLoop records attempts).calls.map Prod.snd = attempts) ∧
    (putLoop records attempts).calls.map Prod.snd <+: attempts := by
  refine ⟨putLoop_after_request_error attempts records, putLoop_fatal_last attempts records,
    fun r rs k rest => putLoop_request_errors r rs rest k, ?_, ?_,
    putLoop_done_has_response attempts records, ?_, putLoop_calls_prefix attempts records⟩
  · intro r rs k rest
    have h := putLoop_request_errors r rs (.requestError true :: rest) k
    have hstop : putLoop (r :: rs) (.requestError true :: rest) =
        ⟨[(r :: rs, .requestError true)], .fatal⟩ := by
      simp [putLoop]
    rw [hstop] at h
    exact h
  · intro r rs k
    have h := putLoop_request_errors r rs [] k
    have hend : putLoop (r :: rs) [] = ⟨[], .waiting⟩ := by
      simp [putLoop]
    rw [hend, List.append_nil, List.append_nil] at h
    exact h
  · intro h
    refine ⟨?_, putLoop_waiting_exhausted attempts records h⟩
    intro hnil
    subst hnil
    simp [putLoop] at h

theorem process_request_failure_keeps_record_set_witness :
    (putLoop ["r0", "r1"]
        [.requestError false, .requestError false, .requestError true,
          .response ⟨some 0, [⟨none⟩, ⟨none⟩]⟩]).calls =
      [(["r0", "r1"], .requestError false), (["r0", "r1"], .requestError false),
        (["r0", "r1"], .requestError true)] ∧
    (putLoop ["r0", "r1"]
        [.requestError false, .requestError false, .requestError true,
          .response ⟨some 0, [⟨none⟩, ⟨none⟩]⟩]).status = .fatal :=
  (process_request_failure_keeps_record_set ["r0", "r1"] []).2.2.2.1 "r0" ["r1"] 2
    [.response ⟨some 0, [⟨none⟩, ⟨none⟩]⟩]


/-- Every call of the loop carries at least one record and no more than the
loop was entered with. -/
theorem putLoop_calls_length {α : Type} (attempts : List Attempt) :
    ∀ (records : List α), ∀ c ∈ (putLoop records attempts).calls,
      1 ≤ c.1.length ∧ c.1.length ≤ records.length := by
  induction attempts with
  | nil => intro records c hc; cases records <;> simp [putLoop] at hc
  | cons a rest ih =>
    intro records c hc
    cases records with
    | nil => simp [putLoop] at hc
    | cons r rs =>
      cases a with
      | requestError stop =>
        cases stop with
        | true =>
          simp only [putLoop, if_true, List.mem_singleton] at hc
          subst hc
          simp
        | false =>
          simp only [putLoop, Bool.false_eq_true, if_false, Run.push, List.mem_cons] at hc
          rcases hc with rfl | hc
          · simp
          · exact ih (r :: rs) c hc
      | response out =>
        cases hf : failedRecords (r :: rs) out with
        | none =>
          simp only [putLoop, hf, List.mem_singleton] at hc
          subst hc
          simp
        | some failed =>
          simp only [putLoop, hf, Run.push, List.mem_cons] at hc
          rcases hc with rfl | hc
          · simp
          · have := ih failed c hc
            have hle := failedRecords_length_le _ _ _ hf
            exact ⟨this.1, le_trans this.2 hle⟩

/-- The batch is flushed by the count: the arrival that makes `n` reach 500 is
the last event received. -/
theorem bufferLoop_count {α : Type} (rest : List (QueueEvent α)) :
    ∀ (es batch : List α) (n : Int), n < 500 → n + es.length = 500 →
      bufferLoop 500 (es.map QueueEvent.arrival ++ rest) batch n =
        some (batch ++ es, rest) := by
  intro es
  induction es with
  | nil => intro batch n hn hlen; simp at hlen; omega
  | cons e es ih =>
    intro batch n hn hlen
    simp only [List.length_cons, Nat.cast_add, Nat.cast_one] at hlen
    simp only [List.map_cons, List.cons_append, bufferLoop]
    by_cases hfull : n + 1 ≥ 500
    · rw [if_pos hfull]
      have : es = [] := by
        apply List.eq_nil_of_length_eq_zero
        omega
      subst this
      simp
    · rw [if_neg hfull]
      have h := ih (batch ++ [e]) (n + 1) (by omega) (by omega)
      simpa using h

/-- The batch is flushed by the timer or by the close of the queue. -/
theorem bufferLoop_stop {α : Type} (t : QueueEvent α)
    (ht : t = .timer ∨ t = .closed) (rest : List (QueueEvent α)) :
    ∀ (es batch : List α) (n : Int), n + es.length < 500 →
      bufferLoop 500 (es.map QueueEvent.arrival ++ t :: rest) batch n =
        some (batch ++ es, rest) := by
  intro es
  induction es with
  | nil =>
    intro batch n _
    rcases ht with rfl | rfl <;> simp [bufferLoop]
  | cons e es ih =>
    intro batch n hlen
    simp only [List.length_cons, Nat.cast_add, Nat.cast_one] at hlen
    simp only [List.map_cons, List.cons_append, bufferLoop]
    rw [if_neg (by omega)]
    have h := ih (batch ++ [e]) (n + 1) (by omega)
    simpa using h

/-- Whatever the loop returns was produced by one of the three flushes. -/
theorem bufferLoop_eq_some {α : Type} :
    ∀ (evs : List (QueueEvent α)) (batch : List α) (n : Int) (b : List α)
      (rest : List (QueueEvent α)), n < 500 →
      bufferLoop 500 evs batch n = some (b, rest) →
      ∃ es : List α, b = batch ++ es ∧
        ((n + es.length = 500 ∧ evs = es.map QueueEvent.arrival ++ rest) ∨
         (n + es.length < 500 ∧ ∃ t : QueueEvent α, (t = .timer ∨ t = .closed) ∧
            evs = es.map QueueEvent.arrival ++ t :: rest)) := by
  intro evs
  induction evs with
  | nil => intro batch n b rest _ h; simp [bufferLoop] at h
  | cons ev evs ih =>
    intro batch n b rest hn h
    cases ev with
    | timer =>
      simp only [bufferLoop, Option.some.injEq, Prod.mk.injEq] at h
      obtain ⟨rfl, rfl⟩ := h
      exact ⟨[], by simp, Or.inr ⟨by simpa using hn, .timer, Or.inl rfl, by simp⟩⟩
    | closed =>
      simp only [bufferLoop, Option.some.injEq, Prod.mk.injEq] at h
      obtain ⟨rfl, rfl⟩ := h
      exact ⟨[], by simp, Or.inr ⟨by simpa using hn, .closed, Or.inr rfl, by simp⟩⟩
    | arrival e =>
      simp only [bufferLoop] at h
      by_cases hfull : n + 1 ≥ 500
      · rw [if_pos hfull] at h
        simp only [Option.some.injEq, Prod.mk.injEq] at h
        obtain ⟨rfl, rfl⟩ := h
        refine ⟨[e], rfl, Or.inl ⟨?_, by simp⟩⟩
        simp only [List.length_singleton, Nat.cast_one]
        omega
      · rw [if_neg hfull] at h
        obtain ⟨es, hb, hes⟩ := ih (batch ++ [e]) (n + 1) b rest (by omega) h
        refine ⟨e :: es, by simp [hb], ?_⟩
        simp only [List.length_cons, Nat.cast_add, Nat.cast_one, List.map_cons,
          List.cons_append, List.cons.injEq, true_and]
        rcases hes with ⟨h1, h2⟩ | ⟨h1, t, ht, h2⟩
        · exact Or.inl ⟨by omega, h2⟩
        · exact Or.inr ⟨by omega, t, ht, h2⟩

/-- The loop returns as soon as the events hold a timer expiry, a close, or
enough arrivals to fill the batch. -/
theorem bufferLoop_isSome {α : Type} :
    ∀ (evs : List (QueueEvent α)) (batch : List α) (n : Int), n < 500 →
      (.timer ∈ evs ∨ .closed ∈ evs ∨ 500 ≤ n + evs.length) →
      (bufferLoop 500 evs batch n).isSome = true := by
  intro evs
  induction evs with
  | nil =>
    intro batch n hn h
    rcases h with h | h | h
    · simp at h
    · simp at h
    · simp only [List.length_nil, Nat.cast_zero] at h
      omega
  | cons ev evs ih =>
    intro batch n hn h
    cases ev with
    | timer => simp [bufferLoop]
    | closed => simp [bufferLoop]
    | arrival e =>
      simp only [bufferLoop]
      by_cases hfull : n + 1 ≥ 500
      · rw [if_pos hfull]; rfl
      · rw [if_neg hfull]
        apply ih _ _ (by omega)
        rcases h with h | h | h
        · left; simpa using h
        · right; left; simpa using h
        · right; right
          simp only [List.length_cons, Nat.cast_add, Nat.cast_one] at h
          omega


/-- C5: for every first entry and every sequence of later events on the
entries queue, `bufferWithTimeOrCount` called with `max = 500` returns as soon
as the events hold a timer expiry, a close or 499 further events, and the batch
it returns has at least 1 and at most 500 entries; so has the record set of
every call `process` then makes for that batch. -/
theorem process_batch_size_bounds {α : Type} (first : α)
    (evs : List (QueueEvent α)) (attempts : List Attempt) :
    ((.timer ∈ evs ∨ .closed ∈ evs ∨ 499 ≤ evs.length) →
      (bufferWithTimeOrCount evs first 500).isSome = true) ∧
    (∀ (batch : List α) (rest : List (QueueEvent α)),
      bufferWithTimeOrCount evs first 500 = some (batch, rest) →
        1 ≤ batch.length ∧ batch.length ≤ 500) ∧
    (∀ (run : Run α) (rest : List (QueueEvent α)),
      processBatch first evs attempts = some (run, rest) →
        ∀ c ∈ run.calls, 1 ≤ c.1.length ∧ c.1.length ≤ 500) := by
  have hbatch : ∀ (batch : List α) (rest : List (QueueEvent α)),
      bufferWithTimeOrCount evs first 500 = some (batch, rest) →
        1 ≤ batch.length ∧ batch.length ≤ 500 := by
    intro batch rest h
    obtain ⟨es, rfl, hes⟩ := bufferLoop_eq_some evs [first] 1 batch rest (by decide) h
    simp only [List.singleton_append, List.length_cons]
    rcases hes with ⟨h1, _⟩ | ⟨h1, _⟩ <;> omega
  refine ⟨?_, hbatch, ?_⟩
  · intro h
    apply bufferLoop_isSome evs [first] 1 (by decide)
    rcases h with h | h | h
    · exact Or.inl h
    · exact Or.inr (Or.inl h)
    · right; right; omega
  · intro run rest h
    unfold processBatch at h
    cases hb : bufferWithTimeOrCount evs first 500 with
    | none => rw [hb] at h; cases h
    | some p =>
      obtain ⟨batch, rest'⟩ := p
      rw [hb] at h
      simp only [Option.some.injEq, Prod.mk.injEq] at h
      obtain ⟨rfl, rfl⟩ := h
      intro c hc
      have h1 := putLoop_calls_length attempts batch c hc
      have h2 := hbatch batch rest' hb
      exact ⟨h1.1, le_trans h1.2 h2.2⟩

theorem process_batch_size_bounds_witness :
    (bufferWithTimeOrCount [.arrival "r1", .timer, .arrival "r2"] "r0" 500).isSome = true ∧
    (1 ≤ ["r0", "r1"].length ∧ ["r0", "r1"].length ≤ 500) := by
  have h := process_batch_size_bounds "r0" [.arrival "r1", .timer, .arrival "r2"] []
  exact ⟨h.1 (Or.inl (by decide)), h.2.1 ["r0", "r1"] [.arrival "r2"] (by decide)⟩

/-- C6: with `max = 500`, `bufferWithTimeOrCount` returns the batch `batch` and
leaves the events `rest` exactly when `batch` is the first entry followed by
entries `es` such that the events begin with the arrivals of `es`, in order,
and either `es` fills the batch to 500 and `rest` is everything after the
500th entry, or fewer arrived and the next event is the timer expiry or the
close of the queue, `rest` being everything after it. -/
theorem bufferWithTimeOrCount_batch_iff {α : Type} (first : α)
    (evs : List (QueueEvent α)) (batch : List α) (rest : List (QueueEvent α)) :
    bufferWithTimeOrCount evs first 500 = some (batch, rest) ↔
      ∃ es : List α, batch = first :: es ∧
        ((es.length = 499 ∧ evs = es.map QueueEvent.arrival ++ rest) ∨
         (es.length < 499 ∧ ∃ t : QueueEvent α, (t = .timer ∨ t = .closed) ∧
            evs = es.map QueueEvent.arrival ++ t :: rest)) := by
  unfold bufferWithTimeOrCount
  constructor
  · intro h
    obtain ⟨es, hb, hes⟩ := bufferLoop_eq_some evs [first] 1 batch rest (by decide) h
    refine ⟨es, by simpa using hb, ?_⟩
    rcases hes with ⟨h1, h2⟩ | ⟨h1, t, ht, h2⟩
    · exact Or.inl ⟨by omega, h2⟩
    · exact Or.inr ⟨by omega, t, ht, h2⟩
  · rintro ⟨es, rfl, ⟨h1, rfl⟩ | ⟨h1, t, ht, rfl⟩⟩
    · have := bufferLoop_count rest es [first] 1 (by decide) (by omega)
      simpa using this
    · have := bufferLoop_stop t ht rest es [first] 1 (by omega)
      simpa using this

end Producer

/-! ## Theorems: s3/archive.go -/

namespace S3

theorem scanPage_no_stop (page : List String) :
    Archive.scanPage ⟨none⟩ page = (page.map ChanOp.send, true) := by
  induction page with
  | nil => rfl
  | cons key rest ih => simp [Archive.scanPage, ih]

theorem pushed_map_send (keys : List String) : pushed (keys.map ChanOp.send) = keys := by
  induction keys with
  | nil => rfl
  | cons key rest ih =>
    simp only [pushed, List.map_cons, List.filterMap_cons] at ih ⊢
    rw [ih]

theorem pushed_append (xs ys : List ChanOp) : pushed (xs ++ ys) = pushed xs ++ pushed ys := by
  simp [pushed]

theorem scanPage_stop (stop : String) (page : List String) :
    pushed (Archive.scanPage ⟨some stop⟩ page).1 = page.takeWhile (fun key => decide (key ≠ stop)) ∧
    ((Archive.scanPage ⟨some stop⟩ page).2 = true ↔ ∀ key ∈ page, key ≠ stop) := by
  induction page with
  | nil => simp [Archive.scanPage, pushed]
  | cons key rest ih =>
    by_cases h : stop = key
    · subst h
      simp [Archive.scanPage, pushed]
    · have h' : key ≠ stop := fun e => h e.symm
      simp only [Archive.scanPage, beq_iff_eq, h, if_false, List.mem_cons, forall_eq_or_imp, ne_eq,
        h', not_false_eq_true, true_and, List.takeWhile_cons, decide_True, if_true]
      refine ⟨?_, ih.2⟩
      rw [← ih.1]
      simp [pushed]

theorem takeWhile_append_of_not_all {β : Type} (p : β → Bool) :
    ∀ (xs ys : List β), (¬ ∀ x ∈ xs, p x = true) →
      (xs ++ ys).takeWhile p = xs.takeWhile p := by
  intro xs
  induction xs with
  | nil => intro ys h; simp at h
  | cons x xs ih =>
    intro ys h
    by_cases hx : p x = true
    · simp only [List.cons_append, List.takeWhile_cons, hx, if_true, List.cons.injEq, true_and]
      apply ih
      intro hall
      apply h
      intro y hy
      rcases List.mem_cons.mp hy with rfl | hy
      · exact hx
      · exact hall y hy
    · simp [List.takeWhile_cons, hx]

theorem pages_no_stop (pages : List (List String)) (err : Option String) :
    pushed (ListObjectsV2Pages (Archive.scanPage ⟨none⟩) pages err).1 = pages.flatten := by
  induction pages with
  | nil => rfl
  | cons page rest ih =>
    simp only [ListObjectsV2Pages, scanPage_no_stop, if_true, List.flatten_cons]
    rw [pushed_append, ih, pushed_map_send]

theorem pages_stop (stop : String) (pages : List (List String)) (err : Option String) :
    pushed (ListObjectsV2Pages (Archive.scanPage ⟨some stop⟩) pages err).1 =
      pages.flatten.takeWhile (fun key => decide (key ≠ stop)) := by
  induction pages with
  | nil => rfl
  | cons page rest ih =>
    have hp := scanPage_stop stop page
    simp only [ListObjectsV2Pages, List.flatten_cons]
    by_cases hmore : (Archive.scanPage ⟨some stop⟩ page).2 = true
    · rw [if_pos hmore]
      have hall := hp.2.mp hmore
      rw [List.takeWhile_append_of_pos (by simpa using hall), pushed_append, ih, hp.1]
      congr 1
      rw [List.takeWhile_eq_self_iff]
      simpa using hall
    · rw [if_neg hmore, hp.1]
      have hex : ¬ ∀ key ∈ page, key ≠ stop := fun hall => hmore (hp.2.mpr hall)
      rw [takeWhile_append_of_not_all]
      simpa using hex

/-- C3: for every key listing, `scan` sends on `pending` exactly the keys that
come before the first key equal to the stop key, in listing order and each
once, and neither the stop key nor any key after it; when no stop key is
configured it sends every listed key once, in listing order. -/
theorem scan_pushes_keys_before_stop (a : Archive) (l : Listing) :
    pushed (a.scan l) =
      match a.stopAt with
      | some stop => l.pages.flatten.takeWhile (fun key => decide (key ≠ stop))
      | none => l.pages.flatten := by
  obtain ⟨stopAt⟩ := a
  cases stopAt with
  | none =>
    simp only [Archive.scan, pushed_append, pages_no_stop]
    simp [pushed]
  | some stop =>
    simp only [Archive.scan, pushed_append, pages_stop]
    simp [pushed]

/-- The listing of `TestScanStopAt`: one page with the keys `a`, `b`, `c` and the
stop key `c`; `scan` sends `a` and `b` and closes the channel. -/
theorem scan_stop_at_test :
    Archive.scan ⟨some "c"⟩ ⟨[["a", "b", "c"]], none⟩ = [.send "a", .send "b", .close] := by
  decide

end S3

/-! ## Theorems: json/parser.go -/

namespace Json

/-- An entry is built only for a candidate that is valid for the configured
schema, parses, and whose `String()` text is not empty; its partition key is
that text and its data the candidate. -/
theorem record_eq_some {Doc : Type} (lib : Library Doc) (p : Parser) (raw : Text)
    (entry : Entry) (h : p.record lib raw = some entry) :
    (∀ schema, p.schema = some schema → schema raw = .valid) ∧
    ∃ parsed, lib.ParseJSON raw = some parsed ∧
      lib.String (lib.Path parsed p.partitionKey) ≠ [] ∧
      entry = { PartitionKey := lib.String (lib.Path parsed p.partitionKey), Data := raw } := by
  unfold Parser.record at h
  have hvalid : ∀ schema, p.schema = some schema → schema raw = .valid := by
    intro schema hs
    rw [hs] at h
    cases hv : schema raw with
    | valid => rfl
    | error => simp [hv] at h
    | invalid => simp [hv] at h
  refine ⟨hvalid, ?_⟩
  have hskip : (match p.schema with
      | some schema =>
        match schema raw with
        | .error => true
        | .invalid => true
        | .valid => false
      | none => false) = false := by
    cases hs : p.schema with
    | none => rfl
    | some schema => simp [hvalid schema hs]
  simp only [hskip, Bool.false_eq_true, if_false] at h
  cases hp : lib.ParseJSON raw with
  | none => simp [hp] at h
  | some parsed =>
    simp only [hp] at h
    by_cases hk : lib.String (lib.Path parsed p.partitionKey) = []
    · simp [hk] at h
    · simp only [hk, if_false, Option.some.injEq] at h
      exact ⟨parsed, rfl, hk, h.symm⟩

/-- A candidate that is valid for the configured schema and parses gets an
entry unless its `String()` text is empty. -/
theorem record_of_valid_parsed {Doc : Type} (lib : Library Doc) (p : Parser) (raw : Text)
    (parsed : Doc) (hvalid : ∀ schema, p.schema = some schema → schema raw = .valid)
    (hparse : lib.ParseJSON raw = some parsed) :
    p.record lib raw =
      if lib.String (lib.Path parsed p.partitionKey) = [] then none
      else some { PartitionKey := lib.String (lib.Path parsed p.partitionKey), Data := raw } := by
  unfold Parser.record
  have hskip : (match p.schema with
      | some schema =>
        match schema raw with
        | .error => true
        | .invalid => true
        | .valid => false
      | none => false) = false := by
    cases hs : p.schema with
    | none => rfl
    | some schema => simp [hvalid schema hs]
  simp only [hskip, Bool.false_eq_true, if_false, hparse]

/-- A candidate that fails schema validation, by an error or an invalid result,
or that does not parse, gets no entry. -/
theorem record_eq_none {Doc : Type} (lib : Library Doc) (p : Parser) (raw : Text)
    (h : (∃ schema, p.schema = some schema ∧ schema raw ≠ .valid) ∨
      lib.ParseJSON raw = none) :
    p.record lib raw = none := by
  cases hr : p.record lib raw with
  | none => rfl
  | some entry =>
    obtain ⟨hvalid, parsed, hparse, _, _⟩ := record_eq_some lib p raw entry hr
    rcases h with ⟨schema, hs, hne⟩ | hnone
    · exact absurd (hvalid schema hs) hne
    · rw [hnone] at hparse
      cases hparse

theorem emit_eq_append {Doc : Type} (lib : Library Doc) (p : Parser) :
    ∀ (records : List Text) (sent : List Entry),
      p.emit lib records sent = sent ++ records.filterMap (p.record lib) := by
  intro records
  induction records with
  | nil => intro sent; simp [Parser.emit]
  | cons raw rest ih =>
    intro sent
    cases hr : p.record lib raw with
    | none => simp [Parser.emit, hr, ih]
    | some entry => simp [Parser.emit, hr, ih]

/-- The worker goes through all candidates in order: its entries are those
built for each candidate, a candidate without entry not stopping the loop. -/
theorem worker_eq_filterMap_record {Doc : Type} (lib : Library Doc) (p : Parser)
    (data : Text) :
    p.worker lib data = (p.records data).filterMap (p.record lib) := by
  unfold Parser.worker
  rw [emit_eq_append, List.nil_append]

theorem String_ne_nil_of_yieldedKey {Doc : Type} (lib : Library Doc) (v : Option Value)
    (h : yieldedKey v ≠ []) : lib.String v ≠ [] := by
  cases v with
  | none => exact absurd rfl h
  | some value =>
    cases value with
    | string s => simp [Library.String]
    | other encoding => exact h

/-- Every candidate that passes gets an entry whose data is the candidate. -/
theorem record_of_passes {Doc : Type} (lib : Library Doc) (p : Parser) (raw : Text)
    (h : passes lib p raw = true) :
    ∃ key, p.record lib raw = some { PartitionKey := key, Data := raw } := by
  unfold passes at h
  rw [Bool.and_eq_true] at h
  obtain ⟨hs, hk⟩ := h
  have hvalid : ∀ schema, p.schema = some schema → schema raw = .valid := by
    intro schema hschema
    rw [hschema] at hs
    exact beq_iff_eq.mp hs
  cases hp : lib.ParseJSON raw with
  | none => rw [hp] at hk; cases hk
  | some parsed =>
    rw [hp] at hk
    have hne : lib.String (lib.Path parsed p.partitionKey) ≠ [] :=
      String_ne_nil_of_yieldedKey lib _ (bne_iff_ne.mp hk)
    refine ⟨lib.String (lib.Path parsed p.partitionKey), ?_⟩
    rw [record_of_valid_parsed lib p raw parsed hvalid hp, if_neg hne]

theorem record_of_passes_witness :
    ∃ key, exampleParser.record exampleLibrary textId =
      some { PartitionKey := key, Data := textId } :=
  record_of_passes exampleLibrary exampleParser textId (by decide)

/-- C7, at the failing input: the candidate `{"id":""}` parses and holds the
empty string at the partition-key path `id`, so it yields an empty partition
key, does not pass, and no entry is expected for it; yet the worker commits an
entry for it, with the two quote characters as partition key, because
`Container.String()` is the JSON encoding of the held value and the worker's
test for the empty string never holds. -/
theorem worker_emits_entry_for_empty_partition_key :
    emptyIdLibrary.ParseJSON textEmptyId = some [(['i', 'd'], .string [])] ∧
    partitionKeyOf emptyIdLibrary exampleParser textEmptyId = [] ∧
    passes emptyIdLibrary exampleParser textEmptyId = false ∧
    expectedEntries emptyIdLibrary exampleParser (exampleParser.records textEmptyId) = [] ∧
    exampleParser.worker emptyIdLibrary textEmptyId =
      [{ PartitionKey := ['"', '"'], Data := textEmptyId }] := by
  decide

/-- C9, at the failing input: the candidate `{"a":1}` parses and has no value
at the partition-key path `id`, yet the worker commits an entry for it, with
the text `{}` as partition key, because `Container.String()` of a container
that holds nothing is `{}` and never the empty string the worker tests for. -/
theorem worker_emits_entry_for_missing_partition_key :
    exampleLibrary.ParseJSON textA = some [(['a'], .other ['1'])] ∧
    exampleLibrary.Path [(['a'], .other ['1'])] exampleParser.partitionKey = none ∧
    exampleParser.worker exampleLibrary textA =
      [{ PartitionKey := ['{', '}'], Data := textA }] := by
  decide

/-- C10, at the failing input: the candidate `{"id":"a"}` holds the string `a`
at the partition-key path `id`, and the entry the worker commits for it has the
partition key `"a"`, quotes included, not `a`, because `Container.String()` is
the JSON encoding of the held value. -/
theorem worker_partition_key_is_quoted :
    exampleLibrary.ParseJSON textId = some [(['i', 'd'], .string ['a'])] ∧
    exampleLibrary.Path [(['i', 'd'], .string ['a'])] exampleParser.partitionKey =
      some (.string ['a']) ∧
    exampleParser.worker exampleLibrary textId =
      [{ PartitionKey := ['"', 'a', '"'], Data := textId }] ∧
    (['"', 'a', '"'] : Text) ≠ ['a'] := by
  decide

/-- For every candidate that parses to a document whose value at the configured
partition-key path is a string `s`, an entry the worker builds for it has as
partition key the JSON encoding of `s`, that is `s` escaped and enclosed in
double quotes, and the candidate as data; the worker builds that entry
whenever the candidate is valid for the configured schema, if any. -/
theorem worker_partition_key_is_json_encoding {Doc : Type} (lib : Library Doc)
    (p : Parser) (raw : Text) (parsed : Doc) (s : Text)
    (hparse : lib.ParseJSON raw = some parsed)
    (hvalue : lib.Path parsed p.partitionKey = some (.string s)) :
    (∀ entry, p.record lib raw = some entry →
      entry = { PartitionKey := '"' :: (lib.escape s ++ ['"']), Data := raw }) ∧
    ((∀ schema, p.schema = some schema → schema raw = .valid) →
      p.record lib raw =
        some { PartitionKey := '"' :: (lib.escape s ++ ['"']), Data := raw }) := by
  have hkey : lib.String (lib.Path parsed p.partitionKey) =
      '"' :: (lib.escape s ++ ['"']) := by
    rw [hvalue]; rfl
  constructor
  · intro entry h
    obtain ⟨_, parsed', hparse', _, hentry⟩ := record_eq_some lib p raw entry h
    rw [hparse] at hparse'
    injection hparse' with hparse'
    subst hparse'
    rw [hentry, hkey]
  · intro hvalid
    rw [record_of_valid_parsed lib p raw parsed hvalid hparse, hkey]
    simp

theorem worker_partition_key_is_json_encoding_witness :
    exampleParser.record exampleLibrary textId =
      some { PartitionKey := ['"', 'a', '"'], Data := textId } :=
  (worker_partition_key_is_json_encoding exampleLibrary exampleParser textId
    [(['i', 'd'], .string ['a'])] ['a'] (by decide) (by decide)).2
    (by intro schema h; cases h)

end Json

/-! ### Splitting under the default patterns -/

namespace Json

theorem replaceFrom_skip (re : Regexp) (repl : Text) :
    ∀ (pre s : Text), replaceFrom re repl pre.length (pre ++ s) = replaceFrom re repl 0 s := by
  intro pre
  induction pre with
  | nil => intro s; rfl
  | cons c pre ih =>
    intro s
    simp only [List.length_cons, List.cons_append, replaceFrom, List.append_eq]
    exact ih s

theorem splitFrom_skip (re : Regexp) :
    ∀ (pre s cur : Text), splitFrom re pre.length (pre ++ s) cur = splitFrom re 0 s cur := by
  intro pre
  induction pre with
  | nil => intro s cur; rfl
  | cons c pre ih =>
    intro s cur
    simp only [List.length_cons, List.cons_append, splitFrom, List.append_eq]
    exact ih s cur

theorem replaceFrom_no_match (re : Regexp) (repl : Text) (c : Char) (cs : Text)
    (h : re (c :: cs) = none) :
    replaceFrom re repl 0 (c :: cs) = c :: replaceFrom re repl 0 cs := by
  simp only [replaceFrom, h]

theorem replaceFrom_match (re : Regexp) (repl : Text) (c : Char) (cs : Text) (n : Nat)
    (h : re (c :: cs) = some (n + 1)) :
    replaceFrom re repl 0 (c :: cs) = repl ++ replaceFrom re repl n cs := by
  simp only [replaceFrom, h]

theorem splitFrom_no_match (re : Regexp) (c : Char) (cs cur : Text)
    (h : re (c :: cs) = none) :
    splitFrom re 0 (c :: cs) cur = splitFrom re 0 cs (cur ++ [c]) := by
  simp only [splitFrom, h]

theorem splitFrom_match (re : Regexp) (c : Char) (cs cur : Text) (n : Nat)
    (h : re (c :: cs) = some (n + 1)) :
    splitFrom re 0 (c :: cs) cur = cur :: splitFrom re n cs [] := by
  simp only [splitFrom, h]

theorem getLast?_tail_of_ne (c : Char) (w : Text) (h : (c :: w).getLast? = some '}')
    (hc : c ≠ '}') : w.getLast? = some '}' := by
  cases w with
  | nil =>
    simp only [List.getLast?_singleton, Option.some.injEq] at h
    exact absurd h hc
  | cons d w => rwa [List.getLast?_cons_cons] at h

/-- Inside a text that ends with `}` the match of `[\r\n]*{` is decided
before the end of the text. -/
theorem lineBreaksThenOpen_append :
    ∀ (w X : Text), w.getLast? = some '}' →
      lineBreaksThenOpen (w ++ X) = lineBreaksThenOpen w := by
  intro w
  induction w with
  | nil => intro X h; simp at h
  | cons c w ih =>
    intro X h
    simp only [List.cons_append, lineBreaksThenOpen, List.append_eq]
    by_cases h1 : c = '{'
    · simp [h1]
    · rw [if_neg h1, if_neg h1]
      by_cases h2 : c = '\r' ∨ c = '\n'
      · rw [if_pos h2, if_pos h2]
        have hc : c ≠ '}' := by
          rcases h2 with rfl | rfl <;> decide
        rw [ih X (getLast?_tail_of_ne c w h hc)]
      · rw [if_neg h2, if_neg h2]

theorem lineBreaksThenOpen_separator :
    ∀ (sep rest : Text), LineBreaks sep →
      lineBreaksThenOpen (sep ++ '{' :: rest) = some (sep.length + 1) := by
  intro sep
  induction sep with
  | nil => intro rest _; simp [lineBreaksThenOpen]
  | cons c sep ih =>
    intro rest h
    have hc : c = '\r' ∨ c = '\n' := h c (List.mem_cons_self _ _)
    have hne : c ≠ '{' := by
      rcases hc with rfl | rfl <;> decide
    have hrest : LineBreaks sep := fun d hd => h d (List.mem_cons_of_mem _ hd)
    simp only [List.cons_append, lineBreaksThenOpen, List.append_eq, if_neg hne, if_pos hc,
      ih rest hrest, Option.map_some', List.length_cons]

theorem matchesNowhere_cons (re : Regexp) (c : Char) (w : Text)
    (h : matchesNowhere re (c :: w) = true) :
    re (c :: w) = none ∧ matchesNowhere re w = true := by
  simp only [matchesNowhere, Bool.and_eq_true, Option.isNone_iff_eq_none] at h
  exact h

/-- Replacement leaves a text without inner boundary unchanged up to its final
`}`, whatever follows. -/
theorem replaceFrom_text (repl : Text) :
    ∀ (u X : Text), u.getLast? = some '}' → matchesNowhere boundaryPattern u = true →
      replaceFrom boundaryPattern repl 0 (u ++ X) =
        u.dropLast ++ replaceFrom boundaryPattern repl 0 ('}' :: X) := by
  intro u
  induction u with
  | nil => intro X h; simp at h
  | cons c w ih =>
    intro X hlast hno
    cases w with
    | nil =>
      simp only [List.getLast?_singleton, Option.some.injEq] at hlast
      subst hlast
      simp
    | cons d w =>
      obtain ⟨hnone, hno'⟩ := matchesNowhere_cons _ _ _ hno
      have hlast' : (d :: w).getLast? = some '}' := by
        rwa [List.getLast?_cons_cons] at hlast
      have hext : boundaryPattern (c :: ((d :: w) ++ X)) = none := by
        have : boundaryPattern (c :: ((d :: w) ++ X)) = boundaryPattern (c :: d :: w) := by
          simp only [boundaryPattern, List.append_eq]
          rw [lineBreaksThenOpen_append (d :: w) X hlast']
        rw [this]
        exact hnone
      rw [List.cons_append, replaceFrom_no_match _ _ _ _ hext, ih X hlast' hno']
      simp

theorem replaceFrom_boundary (repl sep rest : Text) (hsep : LineBreaks sep) :
    replaceFrom boundaryPattern repl 0 ('}' :: (sep ++ '{' :: rest)) =
      repl ++ replaceFrom boundaryPattern repl 0 rest := by
  have hm : boundaryPattern ('}' :: (sep ++ '{' :: rest)) = some ((sep.length + 1) + 1) := by
    simp only [boundaryPattern, List.append_eq, if_true,
      lineBreaksThenOpen_separator sep rest hsep, Option.map_some']
  rw [replaceFrom_match _ _ _ _ _ hm]
  have := replaceFrom_skip boundaryPattern repl (sep ++ ['{']) rest
  simp only [List.length_append, List.length_singleton, List.append_assoc,
    List.singleton_append] at this
  rw [this]


theorem plainObjectText_tail (t : Text) (h : PlainObjectText t) :
    ∃ u : Text, t = '{' :: u ∧ u.getLast? = some '}' ∧
      matchesNowhere boundaryPattern u = true := by
  obtain ⟨hhead, hlast, hb, _⟩ := h
  cases t with
  | nil => simp at hhead
  | cons c u =>
    simp only [List.head?_cons, Option.some.injEq] at hhead
    subst hhead
    exact ⟨u, rfl, getLast?_tail_of_ne _ u hlast (by decide),
      (matchesNowhere_cons _ _ _ hb).2⟩

/-- Replacement under the default pattern turns every boundary of the payload
into the text `},{` between the two neighbours. -/
theorem replaceFrom_payload :
    ∀ (more : List (Text × Text)) (u : Text), u.getLast? = some '}' →
      matchesNowhere boundaryPattern u = true →
      (∀ st ∈ more, LineBreaks st.1 ∧ PlainObjectText st.2) →
      replaceFrom boundaryPattern ['}', '}', ',', '{', '{'] 0
          (u ++ (more.map (fun st => st.1 ++ st.2)).flatten) =
        u ++ (more.map (fun st => '}' :: ',' :: '{' :: st.2)).flatten := by
  intro more
  induction more with
  | nil =>
    intro u hlast hno _
    have h := replaceFrom_text ['}', '}', ',', '{', '{'] u [] hlast hno
    have h1 : replaceFrom boundaryPattern ['}', '}', ',', '{', '{'] 0 ['}'] = ['}'] := by
      decide
    simp only [List.map_nil, List.flatten_nil] at h ⊢
    rw [h, h1]
    rw [List.append_nil]
    exact List.dropLast_append_getLast? _ hlast
  | cons st more ih =>
    intro u hlast hno hmore
    obtain ⟨sep, t⟩ := st
    obtain ⟨hsep, ht⟩ := hmore (sep, t) (List.mem_cons_self _ _)
    obtain ⟨u', rfl, hlast', hno'⟩ := plainObjectText_tail t ht
    have hrest : ∀ st ∈ more, LineBreaks st.1 ∧ PlainObjectText st.2 :=
      fun st hst => hmore st (List.mem_cons_of_mem _ hst)
    simp only [List.map_cons, List.flatten_cons, List.append_assoc, List.cons_append,
      List.nil_append]
    rw [replaceFrom_text _ u _ hlast hno, replaceFrom_boundary _ sep _ hsep,
      ih u' hlast' hno' hrest]
    have hu : u = u.dropLast ++ ['}'] := (List.dropLast_append_getLast? _ hlast).symm
    conv_rhs => rw [hu]
    simp

theorem delimiterPattern_three (c d e : Char) (rest : Text) :
    delimiterPattern (c :: d :: e :: rest) = delimiterPattern [c, d, e] := by
  simp [delimiterPattern, literal, List.isPrefixOf]

/-- No delimiter starts inside a text that ends with `}` and holds none, when
what follows does not begin with a comma. -/
theorem delimiterPattern_inside (c : Char) (w X : Text)
    (hlast : (c :: w).getLast? = some '}')
    (hno : matchesNowhere delimiterPattern (c :: w) = true)
    (hX : X.head? ≠ some ',') :
    delimiterPattern (c :: (w ++ X)) = none := by
  cases w with
  | nil =>
    simp only [List.getLast?_singleton, Option.some.injEq] at hlast
    subst hlast
    cases X with
    | nil => decide
    | cons x X =>
      have hx : x ≠ ',' := by
        intro h; apply hX; simp [h]
      have hx' : (',' == x) = false := by
        rw [beq_eq_false_iff_ne]; exact fun h => hx h.symm
      simp [delimiterPattern, literal, List.isPrefixOf, hx']
  | cons d w =>
    cases w with
    | nil =>
      rw [List.getLast?_cons_cons] at hlast
      simp only [List.getLast?_singleton, Option.some.injEq] at hlast
      subst hlast
      simp [delimiterPattern, literal, List.isPrefixOf]
    | cons e w =>
      have h1 := (matchesNowhere_cons _ _ _ hno).1
      rw [delimiterPattern_three] at h1
      simp only [List.cons_append]
      rw [delimiterPattern_three]
      exact h1

theorem splitFrom_text :
    ∀ (t X cur : Text), t.getLast? = some '}' →
      matchesNowhere delimiterPattern t = true → X.head? ≠ some ',' →
      splitFrom delimiterPattern 0 (t ++ X) cur = splitFrom delimiterPattern 0 X (cur ++ t) := by
  intro t
  induction t with
  | nil => intro X cur h; simp at h
  | cons c w ih =>
    intro X cur hlast hno hX
    have hnone := delimiterPattern_inside c w X hlast hno hX
    rw [List.cons_append, splitFrom_no_match _ _ _ _ hnone]
    cases w with
    | nil => simp
    | cons d w =>
      have hlast' : (d :: w).getLast? = some '}' := by
        rwa [List.getLast?_cons_cons] at hlast
      rw [ih X (cur ++ [c]) hlast' (matchesNowhere_cons _ _ _ hno).2 hX]
      simp

theorem splitFrom_delimiter (rest cur : Text) :
    splitFrom delimiterPattern 0 ('}' :: ',' :: '{' :: rest) cur =
      cur :: splitFrom delimiterPattern 0 rest [] := by
  have hm : delimiterPattern ('}' :: ',' :: '{' :: rest) = some (2 + 1) := by
    rw [delimiterPattern_three]; decide
  rw [splitFrom_match _ _ _ _ _ hm]
  simp only [splitFrom]

/-- Splitting at the default delimiter gives back the texts joined by `},{`. -/
theorem splitFrom_joined :
    ∀ (more : List (Text × Text)) (t cur : Text), t.getLast? = some '}' →
      matchesNowhere delimiterPattern t = true →
      (∀ st ∈ more, LineBreaks st.1 ∧ PlainObjectText st.2) →
      splitFrom delimiterPattern 0
          (t ++ (more.map (fun st => '}' :: ',' :: '{' :: st.2)).flatten) cur =
        (cur ++ t) :: more.map Prod.snd := by
  intro more
  induction more with
  | nil =>
    intro t cur hlast hno _
    have h := splitFrom_text t [] cur hlast hno (by simp)
    simp only [List.map_nil, List.flatten_nil]
    rw [h]
    rfl
  | cons st more ih =>
    intro t cur hlast hno hmore
    obtain ⟨sep, t1⟩ := st
    obtain ⟨_, ht1⟩ := hmore (sep, t1) (List.mem_cons_self _ _)
    have hrest : ∀ st ∈ more, LineBreaks st.1 ∧ PlainObjectText st.2 :=
      fun st hst => hmore st (List.mem_cons_of_mem _ hst)
    simp only [List.map_cons, List.flatten_cons, List.append_assoc, List.cons_append,
      List.nil_append]
    rw [splitFrom_text t _ cur hlast hno (by simp), splitFrom_delimiter,
      ih t1 [] ht1.2.1 ht1.2.2.2 hrest]
    simp

/-- The fields `NewParser` copies from a configuration that carries a
delimiter, a replace pattern and a replacement text. -/
theorem NewParser_patterns (loadSchema : Text → Option Schema) (c : ParserConfig)
    (p : Parser) (d r : Regexp) (hnew : NewParser loadSchema c = some p)
    (hd : c.Delimiter = some d) (hr : c.Replace = some r) (hw : c.ReplaceWith ≠ []) :
    p.delimiter = some d ∧ p.replace = some r ∧ p.replaceWith = c.ReplaceWith := by
  unfold NewParser at hnew
  by_cases hv : c.valid = true
  · simp only [hv, not_true_eq_false, if_false, hd, hr, hw, ne_eq, not_false_eq_true,
      if_true] at hnew
    by_cases hs : c.Schema = []
    · simp only [hs, not_true_eq_false, if_false, Option.some.injEq] at hnew
      subst hnew
      exact ⟨rfl, rfl, rfl⟩
    · simp only [hs, not_false_eq_true, if_true] at hnew
      cases hl : loadSchema c.Schema with
      | none => simp [hl] at hnew
      | some schema =>
        simp only [hl, Option.some.injEq] at hnew
        subst hnew
        exact ⟨rfl, rfl, rfl⟩
  · simp [hv] at hnew

/-- C8: for a parser built by `NewParser` from a configuration with the default
replace pattern, replacement text and delimiter of `NewParserConfig`, and for
every non-empty list of JSON object texts (each beginning with `{`, ending
with `}` and holding neither a `}` followed by line breaks and `{` nor the
text `},{`), the payload that concatenates them with nothing or only CR/LF
characters between neighbours is split into exactly those texts, in order. -/
theorem records_of_concatenated_objects (loadSchema : Text → Option Schema)
    (c : ParserConfig) (p : Parser) (first : Text) (more : List (Text × Text))
    (hnew : NewParser loadSchema c = some p)
    (hdelimiter : c.Delimiter = NewParserConfig.Delimiter)
    (hreplace : c.Replace = NewParserConfig.Replace)
    (hwith : c.ReplaceWith = NewParserConfig.ReplaceWith)
    (hfirst : PlainObjectText first)
    (hmore : ∀ st ∈ more, LineBreaks st.1 ∧ PlainObjectText st.2) :
    p.records (payload first more) = first :: more.map Prod.snd := by
  have hw : c.ReplaceWith ≠ [] := by
    rw [hwith]; decide
  obtain ⟨hd, hr, hrw⟩ := NewParser_patterns loadSchema c p delimiterPattern boundaryPattern
    hnew hdelimiter hreplace hw
  rw [hwith] at hrw
  obtain ⟨u, rfl, hlast, hno⟩ := plainObjectText_tail first hfirst
  unfold Parser.records payload Regexp.ReplaceAll Regexp.Split
  simp only [hd, hr, hrw, NewParserConfig]
  have hopen : boundaryPattern ('{' :: (u ++ (more.map (fun st => st.1 ++ st.2)).flatten)) =
      none := by
    simp [boundaryPattern]
  rw [List.cons_append, replaceFrom_no_match _ _ _ _ hopen, replaceFrom_payload more u hlast hno hmore]
  have h := splitFrom_joined more ('{' :: u) [] hfirst.2.1 hfirst.2.2.2 hmore
  simpa using h

theorem records_of_concatenated_objects_witness :
    exampleParser.records (textA ++ textB) = [textA, textB] :=
  records_of_concatenated_objects (fun _ => none)
    { NewParserConfig with PartitionKey := ['i', 'd'] } exampleParser textA [([], textB)]
    rfl rfl rfl rfl (by decide)
    (by
      intro st hst
      rw [List.mem_singleton] at hst
      subst hst
      exact ⟨by decide, by decide⟩)

end Json

/-! ### A single document under the default patterns -/

namespace Json

theorem replaceFrom_of_matchesNowhere (re : Regexp) (repl : Text) :
    ∀ t : Text, matchesNowhere re t = true → replaceFrom re repl 0 t = t := by
  intro t
  induction t with
  | nil => intro _; rfl
  | cons c w ih =>
    intro h
    obtain ⟨hnone, hrest⟩ := matchesNowhere_cons re c w h
    rw [replaceFrom_no_match re repl c w hnone, ih hrest]

theorem splitFrom_of_matchesNowhere (re : Regexp) :
    ∀ t cur : Text, matchesNowhere re t = true → splitFrom re 0 t cur = [cur ++ t] := by
  intro t
  induction t with
  | nil => intro cur _; simp [splitFrom]
  | cons c w ih =>
    intro cur h
    obtain ⟨hnone, hrest⟩ := matchesNowhere_cons re c w h
    rw [splitFrom_no_match re c w cur hnone, ih (cur ++ [c]) hrest]
    simp

/-- C11, as stated, fails: the payload `{"a":[{"x":1},{"y":2}]}` is a single
JSON object document, and under the default patterns the worker's record set
for it has two candidates, `{"a":[{"x":1` and `"y":2}]}`, cut at the text
`},{` between the two elements of the array. -/
theorem records_splits_single_document :
    exampleParser.records textNested =
      [['{', '"', 'a', '"', ':', '[', '{', '"', 'x', '"', ':', '1'],
        ['"', 'y', '"', ':', '2', '}', ']', '}']] ∧
    exampleParser.records textNested ≠ [textNested] := by
  decide

/-- C11 (amended): for a parser built by `NewParser` from a configuration with
the default replace pattern, replacement text and delimiter of
`NewParserConfig`, a payload is cut only at a `}` followed by line breaks and
`{` or at the text `},{`: for every payload that holds neither, in particular
a single JSON object document that holds neither, the record set is exactly
one candidate, the payload itself. -/
theorem records_of_single_document (loadSchema : Text → Option Schema)
    (c : ParserConfig) (p : Parser) (data : Text)
    (hnew : NewParser loadSchema c = some p)
    (hdelimiter : c.Delimiter = NewParserConfig.Delimiter)
    (hreplace : c.Replace = NewParserConfig.Replace)
    (hwith : c.ReplaceWith = NewParserConfig.ReplaceWith)
    (hboundary : matchesNowhere boundaryPattern data = true)
    (hdelim : matchesNowhere delimiterPattern data = true) :
    p.records data = [data] := by
  have hw : c.ReplaceWith ≠ [] := by
    rw [hwith]; decide
  obtain ⟨hd, hr, _⟩ := NewParser_patterns loadSchema c p delimiterPattern boundaryPattern
    hnew hdelimiter hreplace hw
  unfold Parser.records Regexp.ReplaceAll Regexp.Split
  simp only [hd, hr]
  rw [replaceFrom_of_matchesNowhere boundaryPattern p.replaceWith data hboundary,
    splitFrom_of_matchesNowhere delimiterPattern data [] hdelim]
  rfl

theorem records_of_single_document_witness :
    exampleParser.records textId = [textId] :=
  records_of_single_document (fun _ => none)
    { NewParserConfig with PartitionKey := ['i', 'd'] } exampleParser textId
    rfl rfl rfl rfl (by decide) (by decide)

end Json

/-! ## Theorems: the download pool and `NewArchive` -/

namespace S3

/-- C12, at the failing input: one worker, one listed key `a`.  `scan` sends
`a`, the worker receives it, its download fails, so the worker sends `a` back
and leaves; the barrier then closes `objects`.  In the state reached `objects`
is closed although `pending` is neither closed nor empty and the key `a`,
which `scan` sent, was never sent on `objects`. -/
theorem objects_closed_while_key_pending :
    ((System.init ⟨none⟩ 1 ⟨[["a"]], none⟩).run
        [.scan, .take 0, .download 0 .error, .barrier]).map
      (fun s => (s.objectsClosed, s.pendingClosed, s.pending, s.sent, s.emitted)) =
      some (true, false, ["a"], ["a"], []) := by
  decide

/-- C13, at the failing input: one worker, one listed key `a`.  `scan` sends
`a` and closes `pending`; the worker receives the buffered `a` and its
download fails, so the worker sends `a` on the channel `scan` has already
closed. -/
theorem requeue_on_closed_pending :
    ((System.init ⟨none⟩ 1 ⟨[["a"]], none⟩).run [.scan, .scan, .take 0]).map
      (fun s => (s.pendingClosed, s.workers, s.panicked)) =
      some (true, [.holding "a"], false) ∧
    ((System.init ⟨none⟩ 1 ⟨[["a"]], none⟩).run
        [.scan, .scan, .take 0, .download 0 .error]).map
      (fun s => (s.pendingClosed, s.panicked)) = some (true, true) := by
  decide

/-- The operations of a worker whose first failed download is that of `key`,
after the successful downloads `oks`: one object per successful download, in
order, then the key is sent back once and the barrier is signalled once when
`pending` is open, and the send panics when `pending` is closed. -/
theorem worker_until_first_failure (pendingClosed : Bool)
    (oks : List (String × Bytes)) (key : String) (rest : List (String × Download)) :
    Archive.worker pendingClosed
        (oks.map (fun kd => (kd.1, Download.ok kd.2)) ++ (key, .error) :: rest) =
      oks.map (fun kd => WorkerOp.emit kd.1 kd.2) ++
        (if pendingClosed then [.sendOnClosed key] else [.requeue key, .done]) := by
  induction oks with
  | nil => cases pendingClosed <;> simp [Archive.worker]
  | cons kd oks ih =>
    simp only [List.map_cons, List.cons_append, Archive.worker, List.append_eq]
    rw [ih]

/-- The operations of a worker all of whose downloads succeed: one object per
key, in order, and the barrier is signalled once `pending` is closed. -/
theorem worker_without_failure (pendingClosed : Bool) (oks : List (String × Bytes)) :
    Archive.worker pendingClosed (oks.map (fun kd => (kd.1, Download.ok kd.2))) =
      oks.map (fun kd => WorkerOp.emit kd.1 kd.2) ++
        (if pendingClosed then [.done] else []) := by
  induction oks with
  | nil => cases pendingClosed <;> simp [Archive.worker]
  | cons kd oks ih =>
    simp only [List.map_cons, List.cons_append, Archive.worker]
    rw [ih]

/-- C14, at the failing input: a worker that receives the key `foo` from a
`pending` channel that `scan` has closed, and whose download of `foo` fails,
sends `foo` on the closed channel; the panic ends the process, so the key is
not put back and the barrier is not signalled. -/
theorem worker_failure_on_closed_pending :
    Archive.worker true [("foo", .error)] = [.sendOnClosed "foo"] ∧
    WorkerOp.done ∉ Archive.worker true [("foo", .error)] ∧
    Archive.worker false [("foo", .error)] = [.requeue "foo", .done] := by
  decide

theorem scanPage_sends (a : Archive) (page : List String) :
    (a.scanPage page).1 = (pushed (a.scanPage page).1).map ChanOp.send := by
  induction page with
  | nil => rfl
  | cons key rest ih =>
    unfold Archive.scanPage
    split
    · rfl
    · simp only [pushed, List.filterMap_cons, List.map_cons, List.cons.injEq, true_and]
      exact ih

theorem pages_sends (a : Archive) (pages : List (List String)) (err : Option String) :
    (ListObjectsV2Pages a.scanPage pages err).1 =
      (pushed (ListObjectsV2Pages a.scanPage pages err).1).map ChanOp.send := by
  induction pages with
  | nil => rfl
  | cons page rest ih =>
    simp only [ListObjectsV2Pages]
    split
    · simp only [pushed_append, List.map_append]
      rw [← ih, ← scanPage_sends]
    · exact scanPage_sends a page

theorem pages_ops_ignore_err (a : Archive) (pages : List (List String))
    (err : Option String) :
    (ListObjectsV2Pages a.scanPage pages err).1 =
      (ListObjectsV2Pages a.scanPage pages none).1 := by
  induction pages with
  | nil => rfl
  | cons page rest ih =>
    simp only [ListObjectsV2Pages]
    split
    · simp only [ih]
    · rfl

theorem count_close_map_send (keys : List String) :
    (keys.map ChanOp.send).count ChanOp.close = 0 := by
  induction keys with
  | nil => rfl
  | cons key rest ih =>
    rw [List.map_cons, List.count_cons_of_ne (by intro h; cases h), ih]

/-- The operations of `scan` are the sends of the keys it pushes followed by
one `close`. -/
theorem scan_shape (a : Archive) (l : Listing) :
    a.scan l = (pushed (a.scan l)).map ChanOp.send ++ [.close] := by
  have hsends := pages_sends a l.pages l.err
  have hpushed : pushed (a.scan l) = pushed (ListObjectsV2Pages a.scanPage l.pages l.err).1 := by
    simp [Archive.scan, pushed_append, pushed]
  rw [hpushed, ← hsends]
  rfl

/-- C15: whatever the listing answers (all pages, a stop at the stop key, an
error after some pages), `scan` consults it once and its operations on
`pending` are the sends of the keys it pushed followed by one `close`: the
channel is closed exactly once, at the end, with no send after it; an error
of the listing changes nothing to these operations, so the keys pushed before
the error stay on the queue and nothing is listed again. -/
theorem scan_closes_pending_once (a : Archive) (l : Listing) :
    a.scan l = (pushed (a.scan l)).map ChanOp.send ++ [.close] ∧
    (a.scan l).count ChanOp.close = 1 ∧
    (a.scan l).getLast? = some .close ∧
    a.scan l = a.scan ⟨l.pages, none⟩ ∧
    pushed (a.scan l) <+: l.pages.flatten := by
  have hpushed : pushed (a.scan l) = pushed (ListObjectsV2Pages a.scanPage l.pages l.err).1 := by
    simp [Archive.scan, pushed_append, pushed]
  have hshape := scan_shape a l
  refine ⟨hshape, ?_, ?_, ?_, ?_⟩
  · rw [hshape, List.count_append, count_close_map_send]
    rfl
  · rw [hshape]
    simp
  · simp only [Archive.scan]
    rw [pages_ops_ignore_err]
  · rw [hpushed]
    obtain ⟨stopAt⟩ := a
    cases stopAt with
    | none =>
      rw [pages_no_stop]
    | some stop =>
      rw [pages_stop]
      exact List.takeWhile_prefix _

/-- C16: `NewArchive` returns an error exactly when the bucket is empty, the
client is missing, the downloader is missing or the concurrency is less than
1; the default `NewArchiveConfig()` and the test configuration with
concurrency 0 are rejected, and the test configuration with bucket, client,
downloader and concurrency 1 is accepted. -/
theorem NewArchive_error_iff (c : ArchiveConfig) :
    ((NewArchive c).isNone = true ↔
      (c.Bucket = "" ∨ c.Client = false ∨ c.Downloader = false ∨ c.Concurrency < 1)) ∧
    (NewArchive NewArchiveConfig).isNone = true ∧
    (NewArchive testConfigConcurrencyZero).isNone = true ∧
    (NewArchive testConfigValid).isSome = true := by
  refine ⟨?_, by decide, by decide, by decide⟩
  unfold NewArchive
  cases hval : c.valid with
  | true =>
    simp only [not_true_eq_false, if_false, Option.isNone_some, Bool.false_eq_true, false_iff]
    unfold ArchiveConfig.valid at hval
    simp only [Bool.and_eq_true, decide_eq_true_eq] at hval
    obtain ⟨⟨⟨hb, hc⟩, _, hmin⟩, hd⟩ := hval
    intro h
    rcases h with h | h | h | h
    · exact hb h
    · rw [hc] at h; cases h
    · rw [hd] at h; cases h
    · omega
  | false =>
    simp only [Bool.false_eq_true, not_false_eq_true, if_true, Option.isNone_none, true_iff]
    by_contra hcon
    simp only [not_or, not_lt] at hcon
    obtain ⟨hb, hc, hd, hmin⟩ := hcon
    have hvalid : c.valid = true := by
      unfold ArchiveConfig.valid
      simp only [Bool.and_eq_true, decide_eq_true_eq]
      exact ⟨⟨⟨hb, by simpa using hc⟩, by omega, hmin⟩, by simpa using hd⟩
    rw [hval] at hvalid
    cases hvalid

theorem mem_set_of_ne {β : Type} (ws : List β) (w : Nat) (x y z : β) (hx : x ∈ ws)
    (hy : ws[w]? = some y) (hne : x ≠ y) : x ∈ ws.set w z := by
  obtain ⟨i, hi⟩ := List.getElem?_of_mem hx
  have hiw : w ≠ i := by
    intro h
    subst h
    rw [hi] at hy
    injection hy with hy
    exact hne hy
  have : (ws.set w z)[i]? = some x := by
    rw [List.getElem?_set_ne hiw]
    exact hi
  exact List.getElem?_mem this

theorem lt_length_of_getElem? {β : Type} (ws : List β) (w : Nat) (y : β)
    (hy : ws[w]? = some y) : w < ws.length :=
  (List.getElem?_eq_some_iff.mp hy).1

theorem step_preserves_invariant (n : Nat) (s s' : System) (act : Action)
    (hinv : s.Invariant n) (hact : ∀ w, act ≠ .download w .error)
    (hstep : s.step act = some s') : s'.Invariant n := by
  obtain ⟨scanner, sent, pending, pendingClosed, workers, objects, objectsClosed, panicked⟩ := s
  obtain ⟨hp, hlen, hopen, hclosed, hexit, hobj, hkeys⟩ := hinv
  simp only [System.emitted] at hp hlen hopen hclosed hexit hobj hkeys
  subst hp
  unfold System.step at hstep
  simp only [Bool.false_eq_true, if_false] at hstep
  cases act with
  | scan =>
    simp only at hstep
    cases scanner with
    | nil => simp at hstep
    | cons op rest =>
      have hpc : pendingClosed = false := by
        cases hc : pendingClosed with
        | false => rfl
        | true =>
          have := hclosed hc
          simp at this
      obtain ⟨keys, hkeysEq⟩ := hopen hpc
      cases op with
      | send key =>
        simp only at hstep
        split at hstep
        · injection hstep with hstep
          subst hstep
          cases keys with
          | nil => simp at hkeysEq
          | cons k keys' =>
            simp only [List.map_cons, List.cons_append, List.cons.injEq,
              ChanOp.send.injEq] at hkeysEq
            obtain ⟨_, hrest⟩ := hkeysEq
            refine ⟨rfl, hlen, fun _ => ⟨keys', hrest⟩, fun h => ?_, fun h => ?_, hobj, ?_⟩
            · simp only at h
              rw [hpc] at h
              cases h
            · have := (hexit h).1
              rw [hpc] at this
              cases this
            · intro k' hk'
              simp only [System.emitted] at hk' ⊢
              rcases List.mem_append.mp hk' with hk' | hk'
              · rcases hkeys k' hk' with h | h | h
                · exact Or.inl h
                · exact Or.inr (Or.inl (List.mem_append_left _ h))
                · exact Or.inr (Or.inr h)
              · exact Or.inr (Or.inl (List.mem_append_right _ hk'))
        · cases hstep
      | close =>
        simp only [Option.some.injEq] at hstep
        subst hstep
        cases keys with
        | nil =>
          simp only [List.map_nil, List.nil_append, List.cons.injEq, true_and] at hkeysEq
          refine ⟨rfl, hlen, ?_, fun _ => hkeysEq, fun h => ?_, hobj, hkeys⟩
          · intro h; cases h
          have := (hexit h).1
          rw [hpc] at this
          cases this
        | cons k keys' => simp at hkeysEq
  | take w =>
    simp only at hstep
    split at hstep
    · rename_i _ key rest hw
      injection hstep with hstep
      subst hstep
      have hnoexit : WorkerState.exited ∉ workers := by
        intro h
        have := (hexit h).2
        cases this
      refine ⟨rfl, by simpa using hlen, hopen, hclosed, fun h => ?_, fun h => ?_, ?_⟩
      · rcases List.mem_or_eq_of_mem_set h with h | h
        · exact absurd h hnoexit
        · cases h
      · exact absurd (hobj h _ (List.getElem?_mem hw)) (by intro h'; cases h')
      · intro k hk
        simp only [System.emitted] at hk ⊢
        rcases hkeys k hk with h | h | h
        · exact Or.inl h
        · rcases List.mem_cons.mp h with h | h
          · subst h
            exact Or.inr (Or.inr (List.mem_set _ _ (lt_length_of_getElem? _ _ _ hw) _))
          · exact Or.inr (Or.inl h)
        · exact Or.inr (Or.inr (mem_set_of_ne _ _ _ _ _ h hw (by intro h'; cases h')))
    · cases hstep
  | drained w =>
    simp only at hstep
    split at hstep
    · rename_i hw
      split at hstep
      · rename_i hguard
        obtain ⟨hpc, hpe⟩ := hguard
        injection hstep with hstep
        subst hstep
        refine ⟨rfl, by simpa using hlen, hopen, hclosed, fun _ => ⟨hpc, hpe⟩, fun h => ?_, ?_⟩
        · exact absurd (hobj h _ (List.getElem?_mem hw)) (by intro h'; cases h')
        · intro k hk
          simp only [System.emitted] at hk ⊢
          rcases hkeys k hk with h | h | h
          · exact Or.inl h
          · exact Or.inr (Or.inl h)
          · exact Or.inr (Or.inr (mem_set_of_ne _ _ _ _ _ h hw (by intro h'; cases h')))
      · cases hstep
    · cases hstep
  | download w result =>
    simp only at hstep
    split at hstep
    · rename_i key hw
      cases result with
      | error => exact absurd rfl (hact w)
      | ok data =>
        simp only [Option.some.injEq] at hstep
        subst hstep
        refine ⟨rfl, by simpa using hlen, hopen, hclosed, fun h => ?_, fun h => ?_, ?_⟩
        · rcases List.mem_or_eq_of_mem_set h with h | h
          · exact hexit h
          · cases h
        · exact absurd (hobj h _ (List.getElem?_mem hw)) (by intro h'; cases h')
        · intro k hk
          simp only [System.emitted] at hk ⊢
          rcases hkeys k hk with h | h | h
          · exact Or.inl (by simp [h])
          · exact Or.inr (Or.inl h)
          · by_cases hk' : k = key
            · subst hk'
              exact Or.inl (by simp)
            · refine Or.inr (Or.inr (mem_set_of_ne _ _ _ _ _ h hw ?_))
              intro h'
              injection h' with h'
              exact hk' h'
    · cases hstep
  | barrier =>
    simp only at hstep
    split at hstep
    · rename_i hguard
      injection hstep with hstep
      subst hstep
      refine ⟨rfl, hlen, hopen, hclosed, hexit, fun _ w hw => ?_, hkeys⟩
      have := List.all_eq_true.mp hguard.1 w hw
      exact beq_iff_eq.mp this
    · cases hstep

theorem init_invariant (a : Archive) (n : Nat) (l : Listing) :
    (System.init a n l).Invariant n := by
  refine ⟨rfl, by simp [System.init], fun _ => ⟨pushed (a.scan l), scan_shape a l⟩, ?_, ?_, ?_, ?_⟩
  · intro h; cases h
  · intro h
    simp only [System.init, List.mem_replicate] at h
    cases h.2
  · intro h; cases h
  · intro key h
    simp [System.init] at h

theorem run_preserves_invariant (n : Nat) :
    ∀ (acts : List Action) (s s' : System), s.Invariant n →
      (∀ w, Action.download w .error ∉ acts) → s.run acts = some s' → s'.Invariant n := by
  intro acts
  induction acts with
  | nil =>
    intro s s' hinv _ hrun
    simp only [System.run, Option.some.injEq] at hrun
    subst hrun
    exact hinv
  | cons act rest ih =>
    intro s s' hinv hok hrun
    simp only [System.run] at hrun
    cases hstep : s.step act with
    | none => rw [hstep] at hrun; cases hrun
    | some s₁ =>
      rw [hstep] at hrun
      have hact : ∀ w, act ≠ .download w .error := by
        intro w h
        exact hok w (by rw [h]; exact List.mem_cons_self _ _)
      have hinv₁ := step_preserves_invariant n s s₁ act hinv hact hstep
      exact ih s₁ s' hinv₁ (fun w h => hok w (List.mem_cons_of_mem _ h)) hrun

/-- As long as no download fails, no send reaches a closed `pending`. -/
theorem no_panic_without_failed_download (a : Archive) (n : Nat) (l : Listing)
    (acts : List Action) (s : System)
    (hok : ∀ w, Action.download w .error ∉ acts)
    (hrun : (System.init a n l).run acts = some s) : s.panicked = false :=
  (run_preserves_invariant n acts _ s (init_invariant a n l) hok hrun).1

/-- As long as no download fails, a pool of at least one worker closes
`objects` only when `pending` is closed and empty and every key `scan` sent
has been sent on `objects`. -/
theorem objects_closed_without_failed_download (a : Archive) (n : Nat) (l : Listing)
    (acts : List Action) (s : System) (hn : 0 < n)
    (hok : ∀ w, Action.download w .error ∉ acts)
    (hrun : (System.init a n l).run acts = some s)
    (hclosed : s.objectsClosed = true) :
    s.pendingClosed = true ∧ s.pending = [] ∧ ∀ key ∈ s.sent, key ∈ s.emitted := by
  obtain ⟨_, hlen, _, _, hexit, hobj, hkeys⟩ :=
    run_preserves_invariant n acts _ s (init_invariant a n l) hok hrun
  have hall := hobj hclosed
  have hex : WorkerState.exited ∈ s.workers := by
    cases hw : s.workers with
    | nil => rw [hw] at hlen; simp at hlen; omega
    | cons w ws =>
      have : w = .exited := hall w (by rw [hw]; exact List.mem_cons_self _ _)
      rw [this]
      exact List.mem_cons_self _ _
  obtain ⟨hpc, hpe⟩ := hexit hex
  refine ⟨hpc, hpe, fun key hkey => ?_⟩
  rcases hkeys key hkey with h | h | h
  · exact h
  · rw [hpe] at h; cases h
  · have := hall _ h
    cases this

theorem objects_closed_without_failed_download_witness :
    ((System.init ⟨none⟩ 1 ⟨[["a"]], none⟩).run
        [.scan, .take 0, .download 0 (.ok [1]), .scan, .drained 0, .barrier]).map
      (fun s => (s.objectsClosed, s.pendingClosed, s.pending, s.sent, s.emitted)) =
      some (true, true, [], ["a"], ["a"]) ∧
    ∀ s, (System.init ⟨none⟩ 1 ⟨[["a"]], none⟩).run
        [.scan, .take 0, .download 0 (.ok [1]), .scan, .drained 0, .barrier] = some s →
      s.pendingClosed = true ∧ s.pending = [] ∧ ∀ key ∈ s.sent, key ∈ s.emitted := by
  refine ⟨by decide, fun s hs => ?_⟩
  refine objects_closed_without_failed_download ⟨none⟩ 1 ⟨[["a"]], none⟩ _ s (by decide) ?_ hs ?_
  · intro w h
    simp at h
  · have hd : ((System.init ⟨none⟩ 1 ⟨[["a"]], none⟩).run
        [.scan, .take 0, .download 0 (.ok [1]), .scan, .drained 0, .barrier]).map
        (fun s => s.objectsClosed) = some true := by decide
    rw [hs] at hd
    simpa using hd

end S3

/-! ## Theorems: cmd/root.go -/

namespace Cmd

/-- `createArchive` never fills in `StopAt`: the configuration it builds keeps
the empty stop key of `NewArchiveConfig()`, whatever the settings. -/
theorem archiveConfig_StopAt (v : Settings) : (archiveConfig v).StopAt = "" := by
  unfold archiveConfig
  simp only
  split <;> split <;> rfl

theorem createArchive_stopAt (v : Settings) (a : S3.ArchiveValue)
    (h : createArchive v = some a) : a.stopAt = none := by
  unfold createArchive S3.NewArchive at h
  split at h
  · cases h
  · simp only [Option.some.injEq] at h
    subst h
    simp [archiveConfig_StopAt]

theorem createArchive_stopAt_witness :
    ∃ a, createArchive settingsWithStopAt = some a ∧ a.stopAt = none := by
  cases h : createArchive settingsWithStopAt with
  | none =>
    have hsome : (createArchive settingsWithStopAt).isSome = true := by decide
    rw [h] at hsome
    cases hsome
  | some a => exact ⟨a, rfl, createArchive_stopAt settingsWithStopAt a h⟩

/-- C17, at the failing input: with the stop-at key set to `c`, the archive
`createArchive` builds has no stop key, and its scan of the keys `a`, `b`,
`c`, `d` sends all four, `c` and `d` included. -/
theorem createArchive_drops_stop_key :
    settingsWithStopAt.GetString "s3.stop_at" = "c" ∧
    (createArchive settingsWithStopAt).map (fun a => a.stopAt) = some none ∧
    (createArchive settingsWithStopAt).map
        (fun a => S3.pushed (a.toArchive.scan ⟨[["a", "b", "c", "d"]], none⟩)) =
      some ["a", "b", "c", "d"] := by
  decide

end Cmd
